import Mathlib

set_option maxRecDepth 40000

/-!
Shallow embedding of the exam-recovery pipeline of `scripts/improved-parser.cjs`
(with the `official-parser.cjs` variant where noted), together with proofs about
the claims of the specification.  Strings are modelled as `List Char`; the
JavaScript regular expressions used by the parser are deterministic on their
patterns (no observable backtracking), and are embedded as explicit scanning
functions.
-/

namespace Psycho

/-- JavaScript `\s` character class (the whitespace set used by `String.trim`,
`replace(/\s+/g, ' ')` and `replace(/^\s+|\s+$/g, '')`). -/
def isWS (c : Char) : Bool :=
  let n := c.toNat
  n = 32 || n = 9 || n = 10 || n = 11 || n = 12 || n = 13 ||
  n = 0xa0 || n = 0x1680 || (0x2000 ≤ n && n ≤ 0x200a) ||
  n = 0x2028 || n = 0x2029 || n = 0x202f || n = 0x205f || n = 0x3000 || n = 0xfeff

/-- JavaScript `\d` character class. -/
def isDigitCh (c : Char) : Bool :=
  '0' ≤ c && c ≤ '9'

/-- `leadsWith p l` is true when `p` is an initial segment of `l`
(JavaScript `String.startsWith`). -/
def leadsWith : List Char → List Char → Bool
  | [], _ => true
  | _ :: _, [] => false
  | a :: p, b :: l => a = b && leadsWith p l

/-- `containsSub p l` is true when `p` occurs contiguously inside `l`
(JavaScript `String.includes`). -/
def containsSub (p : List Char) : List Char → Bool
  | [] => leadsWith p []
  | l@(_ :: rest) => leadsWith p l || containsSub p rest

/-- Drop leading JavaScript whitespace. -/
def trimL (l : List Char) : List Char :=
  l.dropWhile isWS

/-- Drop trailing JavaScript whitespace. -/
def trimR : List Char → List Char
  | [] => []
  | c :: rest =>
    match trimR rest with
    | [] => if isWS c then [] else [c]
    | r => c :: r

/-- JavaScript `String.trim` (and the effect of `replace(/^\s+|\s+$/g, '')`). -/
def trimBoth (l : List Char) : List Char :=
  trimR (trimL l)

/-- Worker for `collapse`: the flag records whether the previous character of
the input was whitespace (in which case further whitespace is dropped). -/
def collapseAux : Bool → List Char → List Char
  | _, [] => []
  | prevWS, c :: rest =>
    if isWS c then
      if prevWS then collapseAux true rest
      else ' ' :: collapseAux true rest
    else c :: collapseAux false rest

/-- JavaScript `replace(/\s+/g, ' ')`: each maximal whitespace run becomes one
space. -/
def collapse (l : List Char) : List Char :=
  collapseAux false l

/-- Global-regex removal: scan left to right, at each position try the matcher
(which returns the remainder after a match); on success continue after the
match emitting nothing, otherwise emit the character.  Mirrors
`String.replace(re, '')` with a `g`-flag regex.  Fuelled by the input length
(every matcher used consumes at least one character). -/
def removeAllAux (m : List Char → Option (List Char)) : Nat → List Char → List Char
  | 0, l => l
  | _ + 1, [] => []
  | fuel + 1, c :: rest =>
    match m (c :: rest) with
    | some r => removeAllAux m fuel r
    | none => c :: removeAllAux m fuel rest

def removeAll (m : List Char → Option (List Char)) (l : List Char) : List Char :=
  removeAllAux m l.length l

/-- Matcher for `/- \d+ -/` (page-number footers): the pattern is literal and
`\d+` cannot backtrack past the following space, so matching is
deterministic. -/
def matchP1 : List Char → Option (List Char)
  | '-' :: ' ' :: rest =>
    let ds := rest.takeWhile isDigitCh
    if ds = [] then none
    else
      match rest.drop ds.length with
      | ' ' :: '-' :: r => some r
      | _ => none
  | _ => none

/-- Try a list of literal alternatives in order; return the remainder after the
first one that matches (regex alternation of literals). -/
def matchAlt : List (List Char) → List Char → Option (List Char)
  | [], _ => none
  | a :: as, l => if leadsWith a l then some (l.drop a.length) else matchAlt as l

def seasonAviv : String := "אביב"
def seasonKayitz : String := "קיץ"
def seasonStav : String := "סתיו"

def seasonWords : List (List Char) :=
  [seasonAviv.data, seasonKayitz.data, seasonStav.data]

def moedSp : String := "מועד "

/-- Matcher for `/מועד (אביב|קיץ|סתיו) \d{4}/`. -/
def matchP2 (l : List Char) : Option (List Char) :=
  if leadsWith moedSp.data l then
    match matchAlt seasonWords (l.drop moedSp.data.length) with
    | none => none
    | some r =>
      match r with
      | ' ' :: r2 =>
        let d4 := r2.take 4
        if d4.length = 4 ∧ d4.all isDigitCh then some (r2.drop 4) else none
      | _ => none
  else none

/-- Matcher for `/<lit>[^.]+\./`: literal prefix, then at least one non-dot
character up to the first dot, which is consumed.  `[^.]+` cannot extend past a
dot, so matching is deterministic. -/
def matchLitDot (lit : List Char) (l : List Char) : Option (List Char) :=
  if leadsWith lit l then
    let r := l.drop lit.length
    let run := r.takeWhile (fun c => c ≠ '.')
    if run = [] then none
    else
      match r.drop run.length with
      | '.' :: r2 => some r2
      | _ => none
  else none

def copyrightLit : String := "כל הזכויות שמורות"
def copySignLit : String := "©"
def noCopyLit : String := "אין להעתיק"

/-- The boilerplate-removal passes of `cleanText` (steps 3-7 of the chain):
`- \d+ -`, `מועד <season> \d{4}`, and the three `<lit>[^.]+\.` patterns, in
source order. -/
def cleanRemovals (l : List Char) : List Char :=
  removeAll (matchLitDot noCopyLit.data)
    (removeAll (matchLitDot copySignLit.data)
      (removeAll (matchLitDot copyrightLit.data)
        (removeAll matchP2 (removeAll matchP1 l))))

/-- `cleanText` of `improved-parser.cjs` (lines 21-33): collapse whitespace,
trim, remove footers/boilerplate, trim again.  Empty input short-circuits. -/
def cleanText (l : List Char) : List Char :=
  if l = [] then []
  else trimBoth (cleanRemovals (trimBoth (collapse l)))

/-- JavaScript `\w` character class (used by the `\b` assertion). -/
def isWordCh (c : Char) : Bool :=
  ('a' ≤ c && c ≤ 'z') || ('A' ≤ c && c ≤ 'Z') || ('0' ≤ c && c ≤ '9') || c = '_'

/-- Global-regex removal for a matcher that needs the previous character of the
original string (for `\b`); the matcher returns the last consumed character and
the remainder. -/
def removeAllCtxAux (m : Option Char → List Char → Option (Char × List Char)) :
    Nat → Option Char → List Char → List Char
  | 0, _, l => l
  | _ + 1, _, [] => []
  | fuel + 1, prev, c :: rest =>
    match m prev (c :: rest) with
    | some (lc, r) => removeAllCtxAux m fuel (some lc) r
    | none => c :: removeAllCtxAux m fuel (some c) rest

def removeAllCtx (m : Option Char → List Char → Option (Char × List Char))
    (l : List Char) : List Char :=
  removeAllCtxAux m l.length none l

def dashCh (c : Char) : Bool := c = '-' || c.toNat = 0x2013

def hesberimLit : String := "הסברים"

/-- Matcher for the first regex of `cleanExplanation`:
`\b(אביב|קיץ|סתיו)\s*\d{4}\s*[-–]\s*הסברים[^-]+` followed by a literal
dash-space, digits, space-dash.  The season words start with non-word
characters, so the `\b` assertion requires the preceding character to be a
word character. -/
def matchP6 (prev : Option Char) (l : List Char) : Option (Char × List Char) :=
  match prev with
  | none => none
  | some p =>
    if isWordCh p then
      match matchAlt seasonWords l with
      | none => none
      | some r1 =>
        let r2 := r1.dropWhile isWS
        let d4 := r2.take 4
        if d4.length = 4 ∧ d4.all isDigitCh then
          match (r2.drop 4).dropWhile isWS with
          | c :: r4 =>
            if dashCh c then
              let r5 := r4.dropWhile isWS
              if leadsWith hesberimLit.data r5 then
                let r6 := r5.drop hesberimLit.data.length
                let run := r6.takeWhile (fun c => c ≠ '-')
                if run = [] then none
                else
                  match r6.drop run.length with
                  | '-' :: ' ' :: r7 =>
                    let ds := r7.takeWhile isDigitCh
                    if ds = [] then none
                    else
                      match r7.drop ds.length with
                      | ' ' :: '-' :: r8 => some ('-', r8)
                      | _ => none
                  | _ => none
              else none
            else none
          | [] => none
        else none
    else none

def hashivaSp : String := "חשיבה "
def miluliLit : String := "מילולית"
def kamutiLit : String := "כמותית"
def perekLit : String := "פרק"
def rishonLit : String := "ראשון"
def sheniLit : String := "שני"

/-- Matcher for `/חשיבה (מילולית|כמותית)\s*-\s*פרק\s*(ראשון|שני)/` of
`cleanExplanation`. -/
def matchP7 (l : List Char) : Option (List Char) :=
  if leadsWith hashivaSp.data l then
    match matchAlt [miluliLit.data, kamutiLit.data] (l.drop hashivaSp.data.length) with
    | none => none
    | some r1 =>
      match r1.dropWhile isWS with
      | '-' :: r3 =>
        let r4 := r3.dropWhile isWS
        if leadsWith perekLit.data r4 then
          matchAlt [rishonLit.data, sheniLit.data]
            ((r4.drop perekLit.data.length).dropWhile isWS)
        else none
      | _ => none
  else none

/-- `cleanExplanation` of `improved-parser.cjs` (lines 35-42). -/
def cleanExplanation (l : List Char) : List Char :=
  if l = [] then []
  else trimBoth (removeAll matchP7 (removeAllCtx matchP6 (cleanText l)))

/-! ### Answer-key decoder (`parseAnswerKey`, lines 48-133) -/

/-- Scanner for `String.indexOf`: `idxAux pat i l` returns the index (counted
from `i`) of the first occurrence of `pat` in `l`. -/
def idxAux (pat : List Char) : Nat → List Char → Option Nat
  | i, [] => if pat.isEmpty then some i else none
  | i, l@(_ :: rest) => if leadsWith pat l then some i else idxAux pat (i + 1) rest

/-- JavaScript `text.indexOf(pat, i)` (as `Option`; `none` for `-1`). -/
def indexOfFrom (pat : List Char) (text : List Char) (i : Nat) : Option Nat :=
  idxAux pat i (text.drop i)

/-- Split at newline characters (JavaScript `String.split('\n')`). -/
def splitNL : List Char → List (List Char)
  | [] => [[]]
  | c :: rest =>
    if c = '\n' then [] :: splitNL rest
    else
      match splitNL rest with
      | l :: ls => (c :: l) :: ls
      | [] => [[c]]

structure SecPat where
  pattern : String
  key : String
deriving DecidableEq

/-- The six canonical section-name rows of the answer-key block (`sections`
array inside `parseAnswerKey`). -/
def keySections : List SecPat :=
  [⟨"חשיבה מילולית - פרק ראשון", "verbal-1"⟩,
   ⟨"חשיבה מילולית - פרק שני", "verbal-2"⟩,
   ⟨"חשיבה כמותית - פרק ראשון", "quantitative-1"⟩,
   ⟨"חשיבה כמותית - פרק שני", "quantitative-2"⟩,
   ⟨"אנגלית - פרק ראשון", "english-1"⟩,
   ⟨"אנגלית - פרק שני", "english-2"⟩]

def keyMarker : String := "מפתח תשובות נכונות"
def endMarker : String := "חישוב אומדן"

abbrev Entries := List (Nat × Nat)
abbrev AnswerKey := List (String × Entries)

/-- JavaScript object assignment `m[q] = a`: replace in place or append. -/
def upsert : Entries → Nat → Nat → Entries
  | [], q, a => [(q, a)]
  | (q0, a0) :: rest, q, a =>
    if q0 = q then (q, a) :: rest else (q0, a0) :: upsert rest q a

/-- JavaScript object assignment `ak[s] = es` at the section level. -/
def upsertSec : AnswerKey → String → Entries → AnswerKey
  | [], s, es => [(s, es)]
  | (s0, es0) :: rest, s, es =>
    if s0 = s then (s, es) :: rest else (s0, es0) :: upsertSec rest s es

def lookupSec : AnswerKey → String → Option Entries
  | [], _ => none
  | (s0, es) :: rest, s => if s0 = s then some es else lookupSec rest s

def lookupEntry : Entries → Nat → Option Nat
  | [], _ => none
  | (q0, a) :: rest, q => if q0 = q then some a else lookupEntry rest q

/-- `parseInt` on one character. -/
def jsDigitVal (c : Char) : Option Nat :=
  if isDigitCh c then some (c.toNat - 48) else none

/-- Loop body of `saveAnswers` (lines 70-79): zip question numbers against the
collected digit stream, keeping only digits in `[1,4]`. -/
def saveAnswersLoop : Entries → List Nat → List Char → Entries
  | es, [], _ => es
  | es, _ :: _, [] => es
  | es, q :: qs, c :: cs =>
    match jsDigitVal c with
    | some a => saveAnswersLoop (if 1 ≤ a ∧ a ≤ 4 then upsert es q a else es) qs cs
    | none => saveAnswersLoop es qs cs

structure KeyState where
  akey : AnswerKey
  cur : Option String
  qn : Option (List Nat)
  collected : List Char

/-- `saveAnswers` (lines 70-79): flush pending answers for the current
section. -/
def saveAnswers (st : KeyState) : KeyState :=
  match st.cur, st.qn with
  | some sec, some qs =>
    if st.collected = [] then st
    else
      { st with
        akey := upsertSec st.akey sec
          (saveAnswersLoop ((lookupSec st.akey sec).getD []) qs st.collected) }
  | _, _ => st

/-- First section pattern (in array order) contained in the line
(lines 84-93). -/
def findSec (line : List Char) : Option String :=
  (keySections.find? fun s => containsSub s.pattern.data line).map SecPat.key

/-- Section-row handling: flush the previous section, then reset state for the
new one. -/
def sectionStep (st : KeyState) (line : List Char) : KeyState :=
  match findSec line with
  | some k =>
    let st1 := saveAnswers st
    ⟨upsertSec st1.akey k [], some k, none, []⟩
  | none => st

/-- Greedy sentinel-row decoding (lines 97-107): match successive integers
`1, 2, 3, …` against the digit stream. -/
def greedyAux : Nat → Nat → List Char → List Nat
  | 0, _, _ => []
  | _ + 1, _, [] => []
  | fuel + 1, num, l@(_ :: _) =>
    if leadsWith (Nat.repr num).data l then
      num :: greedyAux fuel (num + 1) (l.drop (Nat.repr num).data.length)
    else []

def greedyNums (l : List Char) : List Nat :=
  greedyAux l.length 1 l

/-- `^\d+$`. -/
def isDigitsLine : List Char → Bool
  | [] => false
  | l@(_ :: _) => l.all isDigitCh

def sentinelPre : String := "123456789"

/-- Append a pure-digit line to the collected answer stream, flushing once it
reaches the sentinel's length (lines 109-115 and 117-123). -/
def accumulate (st : KeyState) (line : List Char) : KeyState :=
  let col := st.collected ++ line
  match st.qn with
  | some qs =>
    if qs.length ≤ col.length then
      let st1 := saveAnswers { st with collected := col }
      { st1 with qn := none, collected := [] }
    else { st with collected := col }
  | none => st

/-- Digit-line handling (lines 95-124). -/
def digitStep (st : KeyState) (line : List Char) : KeyState :=
  if st.cur.isSome = true ∧ isDigitsLine line = true ∧ 10 < line.length then
    if leadsWith sentinelPre.data line then
      { st with qn := some (greedyNums line), collected := [] }
    else if st.qn.isSome then accumulate st line
    else st
  else if st.cur.isSome = true ∧ st.qn.isSome = true ∧ isDigitsLine line = true then
    accumulate st line
  else st

/-- The line loop of `parseAnswerKey` (lines 81-130); the terminal marker ends
the scan with a final flush, and pending answers at end of input are
discarded. -/
def scanLines : KeyState → List (List Char) → AnswerKey
  | st, [] => st.akey
  | st, l :: ls =>
    let line := trimBoth l
    let st2 := digitStep (sectionStep st line) line
    if containsSub endMarker.data line then (saveAnswers st2).akey
    else scanLines st2 ls

def initKeyState : KeyState := ⟨[], none, none, []⟩

/-- `parseAnswerKey` (lines 48-133): decode the official answer key from the
text following the first occurrence of the answer-key marker. -/
def parseAnswerKey (text : List Char) : AnswerKey :=
  match indexOfFrom keyMarker.data text 0 with
  | none => []
  | some i => scanLines initKeyState (splitNL (text.drop i))

/-- The suffix of the text starting at the first occurrence of the answer-key
marker (the only part of the input `parseAnswerKey` reads). -/
def markerSuffix (text : List Char) : Option (List Char) :=
  (indexOfFrom keyMarker.data text 0).map fun i => text.drop i

/-! ### Section boundaries (`SECTION_ORDER`, `findSectionMarker`,
`extractHebrewSection` lines 244-275) -/

/-- `SECTION_ORDER`: the six sections in exam order followed by the answer-key
marker. -/
def sectionOrder : List String :=
  ["חשיבה מילולית - פרק ראשון",
   "חשיבה מילולית - פרק שני",
   "חשיבה כמותית - פרק ראשון",
   "חשיבה כמותית - פרק שני",
   "אנגלית - פרק ראשון",
   "אנגלית - פרק שני",
   "מפתח תשובות נכונות"]

def garbledQuant1 : String := "חשיבה Ăמותית - פרק ראשון"
def garbledQuant2 : String := "חשיבה Ăמותית - פרק שני"

/-- `SECTION_VARIANTS`: garbled spellings tried in addition to the canonical
marker. -/
def sectionVariants (marker : String) : List String :=
  if marker = "חשיבה כמותית - פרק ראשון" then [marker, garbledQuant1]
  else if marker = "חשיבה כמותית - פרק שני" then [marker, garbledQuant2]
  else [marker]

/-- `findSectionMarker` (lines 229-242): earliest occurrence over all
variants. -/
def findSectionMarker (text : List Char) (marker : String) (start : Nat) : Option Nat :=
  (sectionVariants marker).foldl
    (fun acc v =>
      match indexOfFrom v.data text start, acc with
      | some i, some m => some (min i m)
      | some i, none => some i
      | none, a => a)
    none

def tocLit : String := "הזמן המוקצב"

/-- The table-of-contents skip of `extractHebrewSection` (lines 249-250):
start searching at the landmark phrase if it occurs past offset 1000,
otherwise at the fixed offset 1000. -/
def tocSearchStart (text : List Char) : Nat :=
  match indexOfFrom tocLit.data text 1000 with
  | some i => if 0 < i then i else 1000
  | none => 1000

/-- The raw end boundary (lines 256-267): first occurrence of the next
canonical marker after the section start, or the end of the text. -/
def sectionEnd1 (text : List Char) (k : Nat) (marker : String) (sectionStart : Nat) : Nat :=
  if k < sectionOrder.length - 1 then
    match sectionOrder.get? (k + 1) with
    | some nextMarker =>
      match findSectionMarker text nextMarker (sectionStart + marker.length) with
      | some nextIdx => nextIdx
      | none => text.length
    | none => text.length
  else text.length

/-- The answer-key clamp on the end boundary (lines 269-273). -/
def sectionEnd2 (text : List Char) (sectionStart e1 : Nat) : Nat :=
  match indexOfFrom keyMarker.data text sectionStart with
  | some aIdx => if aIdx < e1 then aIdx else e1
  | none => e1

/-- The boundary computation of `extractHebrewSection` (lines 247-275; the
English extractor repeats it verbatim): start is the first marker occurrence
after the table-of-contents skip, end is the first occurrence of the next
canonical marker after the start, clamped by the answer-key marker.  `k` is
the index of the section in `sectionOrder`. -/
def hebrewSectionBounds (text : List Char) (k : Nat) : Option (Nat × Nat) :=
  match sectionOrder.get? k with
  | none => none
  | some marker =>
    match findSectionMarker text marker (tocSearchStart text) with
    | none => none
    | some sectionStart =>
      some (sectionStart, sectionEnd2 text sectionStart (sectionEnd1 text k marker sectionStart))

/-! ### Inline Hebrew option recognizer (`parseInlineHebrewOptions`,
lines 141-193) and the line dispatch of `extractHebrewSection`
(lines 387-421) -/

def isParen (c : Char) : Bool := c = '(' || c = ')'

def dig14 (c : Char) : Bool := '1' ≤ c && c ≤ '4'

def dval (c : Char) : Nat := c.toNat - 48

/-- `[)(][1-4][)(]` at the head of the list. -/
def tripleAt : List Char → Bool
  | a :: d :: b :: _ => isParen a && dig14 d && isParen b
  | _ => false

/-- Character allowed in group 1 of the RTL pattern (`[^\s()]`). -/
def allowedRtl (c : Char) : Bool :=
  !(isWS c) && !(isParen c)

/-- Matcher at one position for `/([^\s()]+)\s*\)([1-4])\(/`: a maximal
non-space non-paren run, maximal whitespace, then a literal close-digit-open
triple.  Neither quantifier can backtrack usefully, so the match is
deterministic.  Returns (digit value, captured run, remainder after the
match). -/
def rtlMatchAt (l : List Char) : Option (Nat × List Char × List Char) :=
  let run := l.takeWhile allowedRtl
  if run = [] then none
  else
    match (l.drop run.length).dropWhile isWS with
    | ')' :: d :: '(' :: rest =>
      if dig14 d then some (dval d, run, rest) else none
    | _ => none

/-- Scan a line for all (non-overlapping, leftmost) matches of a positional
matcher, advancing one character on failure and past the match on success
(JavaScript `matchAll` semantics). -/
def scanMatches (m : List Char → Option (Nat × List Char × List Char)) :
    Nat → List Char → List (Nat × List Char)
  | 0, _ => []
  | _ + 1, [] => []
  | fuel + 1, l@(c :: rest) =>
    match m l with
    | some (n, v, after) => (n, v) :: scanMatches m fuel after
    | none =>
      let _ := c
      scanMatches m fuel rest

def rtlScan (l : List Char) : List (Nat × List Char) :=
  scanMatches rtlMatchAt l.length l

/-- Lookahead `(?=\s*[)(][1-4][)(]|$)` of the LTR pattern. -/
def lookOK (t : List Char) : Bool :=
  tripleAt (t.dropWhile isWS) || t.isEmpty

/-- Lazy expansion of group 2 (`[^)(]+?`) of the LTR pattern: grow one
non-paren character at a time until the lookahead holds. -/
def ltrG : Nat → List Char → List Char → Option (List Char × List Char)
  | 0, _, _ => none
  | fuel + 1, acc, t =>
    match t with
    | [] => none
    | c :: rest =>
      if isParen c then none
      else
        let acc1 := acc ++ [c]
        if lookOK rest then some (acc1, rest) else ltrG fuel acc1 rest

/-- Backtracking of the greedy `\s*` before group 2: try the maximal
whitespace skip first, then shorter ones. -/
def ltrW (rest : List Char) : Nat → Option (List Char × List Char)
  | 0 => ltrG rest.length [] rest
  | w + 1 =>
    match ltrG rest.length [] (rest.drop (w + 1)) with
    | some res => some res
    | none => ltrW rest w

/-- Matcher at one position for
`/[)(]([1-4])[)(]\s*([^)(]+?)(?=\s*[)(][1-4][)(]|$)/`. -/
def ltrMatchAt (l : List Char) : Option (Nat × List Char × List Char) :=
  match l with
  | a :: d :: b :: rest =>
    if isParen a && dig14 d && isParen b then
      (ltrW rest (rest.takeWhile isWS).length).map fun p => (dval d, p.1, p.2)
    else none
  | _ => none

def ltrScan (l : List Char) : List (Nat × List Char) :=
  scanMatches ltrMatchAt l.length l

/-- Lazy expansion of group 1 (`[^)(]+?`) of the mixed pattern: after each
added non-paren character, skip whitespace greedily and test for the
close/open-digit triple (which is consumed by the match). -/
def mixedGo : Nat → List Char → List Char → Option (Nat × List Char × List Char)
  | 0, _, _ => none
  | fuel + 1, acc, t =>
    match t with
    | [] => none
    | c :: rest =>
      if isParen c then none
      else
        let acc1 := acc ++ [c]
        match rest.dropWhile isWS with
        | a :: d :: b :: after =>
          if isParen a && dig14 d && isParen b then some (dval d, acc1, after)
          else mixedGo fuel acc1 rest
        | _ => mixedGo fuel acc1 rest

/-- Matcher at one position for `/([^)(]+?)\s*[)(]([1-4])[)(]/`. -/
def mixedMatchAt (l : List Char) : Option (Nat × List Char × List Char) :=
  mixedGo l.length [] l

def mixedScan (l : List Char) : List (Nat × List Char) :=
  scanMatches mixedMatchAt l.length l

/-- Position after the last `[)(][1-4][)(]` triple in the list, if any. -/
def lastTripleEnd : List Char → Option (List Char)
  | [] => none
  | l@(_ :: rest) =>
    match lastTripleEnd rest with
    | some r => some r
    | none =>
      match l with
      | a :: d :: b :: after =>
        if isParen a && dig14 d && isParen b then some after else none
      | _ => none

/-- `optText.replace(/^.*[)(][1-4][)(]\s*/, '')` of the mixed stage: drop
everything through the last triple and the following whitespace.  Group 1 of
the mixed pattern can never contain a parenthesis, so on the texts it is
applied to this is the identity. -/
def dropLeak (t : List Char) : List Char :=
  match lastTripleEnd t with
  | some rest => rest.dropWhile isWS
  | none => t

/-- Apply a list of matches to the four option slots: `set` the slot for each
match whose trimmed text is nonempty, reporting whether any slot was set. -/
def applyMatches (trimF : List Char → List Char) :
    List (Nat × List Char) → List (List Char) → Bool → List (List Char) × Bool
  | [], opts, parsed => (opts, parsed)
  | (n, v) :: ms, opts, parsed =>
    let t := trimF v
    if 1 ≤ n ∧ n ≤ 4 ∧ t ≠ [] then
      applyMatches trimF ms (opts.set (n - 1) t) true
    else applyMatches trimF ms opts parsed

def emptyOpts : List (List Char) := [[], [], [], []]

/-- `parseInlineHebrewOptions` (lines 141-193): three pattern stages, each
gated on at least two regex matches, the later stages tried only when the
earlier ones set no option. -/
def parseInlineHebrewOptions (l : List Char) : Option (List (List Char)) :=
  let ms1 := rtlScan l
  let (opts1, parsed1) :=
    if 2 ≤ ms1.length then applyMatches trimBoth ms1 emptyOpts false
    else (emptyOpts, false)
  if parsed1 then some opts1
  else
    let ms2 := ltrScan l
    let (opts2, parsed2) :=
      if 2 ≤ ms2.length then applyMatches trimBoth ms2 opts1 false
      else (opts1, false)
    if parsed2 then some opts2
    else
      let ms3 := mixedScan l
      let (opts3, parsed3) :=
        if 2 ≤ ms3.length then
          applyMatches (fun v => dropLeak (trimBoth v)) ms3 opts2 false
        else (opts2, false)
      if parsed3 then some opts3 else none

/-- Matcher for the standalone option line `^([^)(]+?)\s*\)([1-4])\($`
(line 403): the whole line is a non-paren run, optional whitespace and a
close-digit-open triple. -/
def standaloneRtl (l : List Char) : Option (Nat × List Char) :=
  if 4 ≤ l.length then
    match l.drop (l.length - 3) with
    | [')', d, '('] =>
      let front := l.take (l.length - 3)
      if dig14 d ∧ front ≠ [] ∧ front.all (fun c => !isParen c) then
        some (dval d, if trimR front = [] then front.take 1 else trimR front)
      else none
    | _ => none
  else none

/-- Matcher for the standalone option line `^\(([1-4])\)\s*(.+)$`
(line 411). -/
def standaloneLtr (l : List Char) : Option (Nat × List Char) :=
  match l with
  | '(' :: d :: ')' :: rest =>
    if dig14 d ∧ rest ≠ [] then
      let w := (rest.takeWhile isWS).length
      some (dval d, if w < rest.length then rest.drop w else rest.drop (rest.length - 1))
    else none
  | _ => none

inductive LineClass where
  | inlineOpts (opts : List (List Char))
  | single (n : Nat) (txt : List Char)
  | stemLine
deriving DecidableEq

/-- The in-question line dispatch of `extractHebrewSection` (lines 387-421):
inline options (if at least two nonempty), else a standalone option line,
else stem text. -/
def classifyLine (l : List Char) : LineClass :=
  let fallback :=
    match standaloneRtl l with
    | some (n, t) => LineClass.single n (cleanText t)
    | none =>
      match standaloneLtr l with
      | some (n, t) => LineClass.single n (cleanText t)
      | none => LineClass.stemLine
  match parseInlineHebrewOptions l with
  | some opts =>
    if 2 ≤ (opts.filter (fun o => o ≠ [])).length then LineClass.inlineOpts opts
    else fallback
  | none => fallback

/-! ### Reconciliation merge and exam assembly (`parseExam`, lines 689-830).
The exam and solution extraction maps and the explanation map are parameters:
the merge loop consumes them only through lookups, so the claims about the
merge hold for every extraction outcome. -/

structure SectionDef where
  key : String
  type : String
  sectionNum : Nat
  marker : String
  lang : String
deriving DecidableEq

/-- `sectionDefs` (lines 705-712). -/
def sectionDefs : List SectionDef :=
  [⟨"verbal-1", "verbal", 1, "חשיבה מילולית - פרק ראשון", "he"⟩,
   ⟨"verbal-2", "verbal", 2, "חשיבה מילולית - פרק שני", "he"⟩,
   ⟨"quantitative-1", "quantitative", 1, "חשיבה כמותית - פרק ראשון", "he"⟩,
   ⟨"quantitative-2", "quantitative", 2, "חשיבה כמותית - פרק שני", "he"⟩,
   ⟨"english-1", "english", 1, "אנגלית - פרק ראשון", "en"⟩,
   ⟨"english-2", "english", 2, "אנגלית - פרק שני", "en"⟩]

def hebrewLabels : List String := ["א", "ב", "ג", "ד"]
def englishLabels : List String := ["1", "2", "3", "4"]

/-- An extracted question block: stem and exactly four option texts (the
extractors always produce four slots; empty string means "not found"). -/
structure Block where
  stem : String
  o1 : String
  o2 : String
  o3 : String
  o4 : String
deriving DecidableEq

def Block.optList (b : Block) : List String :=
  [b.o1, b.o2, b.o3, b.o4]

structure OptionRec where
  id : Nat
  text : String
  label : String
deriving DecidableEq

structure Question where
  id : String
  examId : String
  sectionType : String
  sectionNumber : Nat
  questionNumber : Nat
  language : String
  stem : String
  options : List OptionRec
  correctAnswer : Nat
  explanation : String
  hasFullText : Bool
deriving DecidableEq

def labelAt (labels : List String) (i : Nat) : String :=
  labels.getD i ""

def answerWord : String := "תשובה "

def placeholderText (lbl : String) : String :=
  answerWord ++ lbl

/-- The all-placeholder option list (lines 770-774). -/
def placeholderOpts (labels : List String) : List OptionRec :=
  [⟨1, placeholderText (labelAt labels 0), labelAt labels 0⟩,
   ⟨2, placeholderText (labelAt labels 1), labelAt labels 1⟩,
   ⟨3, placeholderText (labelAt labels 2), labelAt labels 2⟩,
   ⟨4, placeholderText (labelAt labels 3), labelAt labels 3⟩]

def orPlaceholder (lbl : String) (t : String) : String :=
  if t = "" then placeholderText lbl else t

/-- Options built from an extracted block (lines 763-767): empty slots get
placeholder text. -/
def extractedOpts (labels : List String) (b : Block) : List OptionRec :=
  [⟨1, orPlaceholder (labelAt labels 0) b.o1, labelAt labels 0⟩,
   ⟨2, orPlaceholder (labelAt labels 1) b.o2, labelAt labels 1⟩,
   ⟨3, orPlaceholder (labelAt labels 2) b.o3, labelAt labels 2⟩,
   ⟨4, orPlaceholder (labelAt labels 3) b.o4, labelAt labels 3⟩]

def strLeads (s pre : String) : Bool :=
  leadsWith pre.data s.data

def shealaWord : String := "שאלה"
def questionWord : String := "Question"
def heLang : String := "he"

/-- `hasValidStem` (line 779): nonempty, longer than 3, not starting with the
placeholder word. -/
def genuineStem (s : String) : Bool :=
  (s ≠ "" : Bool) && decide (3 < s.length) && !(strLeads s shealaWord)

/-- Exam extraction wins; the solution block is used only when the exam
extractor found nothing (lines 749-755). -/
def mergeExtract (e s : Option Block) : Option Block :=
  match e with
  | some b => some b
  | none => s

def effStem (b? : Option Block) : String :=
  match b? with
  | some b => b.stem
  | none => ""

def nonemptyOptCount (b? : Option Block) : Nat :=
  match b? with
  | some b => (b.optList.filter fun o => o ≠ "").length
  | none => 0

def dashSep : String := " - "

def placeholderStem (d : SectionDef) (qNum : Nat) : String :=
  if d.lang = heLang then shealaWord ++ " " ++ toString qNum ++ dashSep ++ d.marker
  else questionWord ++ " " ++ toString qNum ++ dashSep ++ d.marker

def strOf (l : List Char) : String := String.mk l

def cleanExplanationStr (s : String) : String :=
  strOf (cleanExplanation s.data)

def dashStr : String := "-"

def mkQid (season key : String) (qNum : Nat) : String :=
  season ++ dashStr ++ key ++ dashStr ++ toString qNum

/-- One iteration of the question-building loop of `parseExam`
(lines 745-801). -/
def buildQuestion (season : String) (d : SectionDef) (es : Entries)
    (ex sol : String → Nat → Option Block) (expl : String → Nat → Option String)
    (qNum : Nat) : Question :=
  let correctAnswer := (lookupEntry es qNum).getD 0
  let explanation := (expl d.key qNum).getD ""
  let extracted := mergeExtract (ex d.key qNum) (sol d.key qNum)
  let labels := if d.lang = heLang then hebrewLabels else englishLabels
  let ov :=
    match extracted with
    | some b =>
      if b.optList.any (fun o => o ≠ "") then
        (extractedOpts labels b,
         decide (2 ≤ (b.optList.filter fun o => o ≠ "").length))
      else (placeholderOpts labels, false)
    | none => (placeholderOpts labels, false)
  let stem0 := effStem extracted
  let stem := if stem0 = "" ∨ stem0.length < 3 then placeholderStem d qNum else stem0
  { id := mkQid season d.key qNum
    examId := season
    sectionType := d.type
    sectionNumber := d.sectionNum
    questionNumber := qNum
    language := d.lang
    stem := stem
    options := ov.1
    correctAnswer := correctAnswer
    explanation := cleanExplanationStr explanation
    hasFullText := genuineStem stem0 || ov.2 }

/-- Per-section question list: the answer key's question numbers, sorted
ascending, each built into a `Question` (lines 718-803; an empty key section
contributes nothing). -/
def sectionQuestions (season : String) (d : SectionDef) (es : Entries)
    (ex sol : String → Nat → Option Block) (expl : String → Nat → Option String) :
    List Question :=
  let qNums := List.insertionSort (· ≤ ·) (es.map Prod.fst)
  if qNums = [] then [] else qNums.map (buildQuestion season d es ex sol expl)

/-- The merged question list of one exam (`allQuestions` of `parseExam`). -/
def parseExamQuestions (akey : AnswerKey) (ex sol : String → Nat → Option Block)
    (expl : String → Nat → Option String) (season : String) : List Question :=
  sectionDefs.flatMap fun d =>
    sectionQuestions season d ((lookupSec akey d.key).getD []) ex sol expl

/-- Answer-key lookup for one `(sectionKey, questionNumber)` pair. -/
def keyVal (akey : AnswerKey) (sec : String) (q : Nat) : Option Nat :=
  lookupEntry ((lookupSec akey sec).getD []) q

def capWord (s : String) : String :=
  match s.data with
  | [] => s
  | c :: rest => strOf (c.toUpper :: rest)

def splitDash : List Char → List (List Char)
  | [] => [[]]
  | c :: rest =>
    if c = '-' then [] :: splitDash rest
    else
      match splitDash rest with
      | l :: ls => (c :: l) :: ls
      | [] => [[c]]

def joinSp : List String → String
  | [] => ""
  | [s] => s
  | s :: rest => s ++ " " ++ joinSp rest

def examWord : String := " Exam"
def mivchanWord : String := "מבחן "
def dateLit : String := "2025"
def verbalStr : String := "verbal"
def quantitativeStr : String := "quantitative"
def englishStr : String := "english"

/-- `nameEn` of the assembled exam (line 813). -/
def nameEnOf (season : String) : String :=
  joinSp (((splitDash season.data).map strOf).map capWord) ++ examWord

structure SectionsCounts where
  verbal : Nat
  quantitative : Nat
  english : Nat
deriving DecidableEq

structure ExamDoc where
  id : String
  name : String
  nameEn : String
  date : String
  totalQuestions : Nat
  fullTextQuestions : Nat
  sections : SectionsCounts
  questions : List Question
deriving DecidableEq

/-- The exam document built by `parseExam` (lines 810-823): the per-section
counts are computed by filtering the merged questions on `sectionType`
alone. -/
def assembleExam (season seasonHebrew : String) (allQuestions : List Question) :
    ExamDoc :=
  { id := season
    name := mivchanWord ++ seasonHebrew
    nameEn := nameEnOf season
    date := dateLit
    totalQuestions := allQuestions.length
    fullTextQuestions := (allQuestions.filter fun q => q.hasFullText).length
    sections :=
      ⟨(allQuestions.filter fun q => q.sectionType = verbalStr).length,
       (allQuestions.filter fun q => q.sectionType = quantitativeStr).length,
       (allQuestions.filter fun q => q.sectionType = englishStr).length⟩
    questions := allQuestions }

/-- Count of merged questions in one `(sectionType, sectionNumber)` group —
the grouping the specification describes. -/
def countPair (qs : List Question) (ty : String) (n : Nat) : Nat :=
  (qs.filter fun q => q.sectionType = ty ∧ q.sectionNumber = n).length

/-! ### The `official-parser.cjs` question builder (lines 228-251), which
synthesizes an explanation naming the correct label but carries no
`hasFullText` flag. -/

structure OfficialQuestion where
  id : String
  questionNumber : Nat
  sectionType : String
  sectionNumber : Nat
  sectionNameHe : String
  text : String
  options : List OptionRec
  correctAnswer : Nat
  correctAnswerLabel : String
  explanation : String
deriving DecidableEq

def synthPrefix : String := "התשובה הנכונה היא: "
def qPrefix : String := "-q"

/-- One question of `official-parser.cjs` `parseExam` (lines 228-251). -/
def officialBuild (season : String) (d : SectionDef) (qNum a : Nat)
    (explv : Option String) : OfficialQuestion :=
  let explanation := explv.getD ""
  { id := season ++ dashStr ++ d.type ++ dashStr ++ toString d.sectionNum ++ qPrefix ++ toString qNum
    questionNumber := qNum
    sectionType := d.type
    sectionNumber := d.sectionNum
    sectionNameHe := d.marker
    text := shealaWord ++ " " ++ toString qNum
    options :=
      [⟨1, placeholderText (labelAt hebrewLabels 0), labelAt hebrewLabels 0⟩,
       ⟨2, placeholderText (labelAt hebrewLabels 1), labelAt hebrewLabels 1⟩,
       ⟨3, placeholderText (labelAt hebrewLabels 2), labelAt hebrewLabels 2⟩,
       ⟨4, placeholderText (labelAt hebrewLabels 3), labelAt hebrewLabels 3⟩]
    correctAnswer := a - 1
    correctAnswerLabel := labelAt hebrewLabels (a - 1)
    explanation :=
      if explanation = "" then synthPrefix ++ labelAt hebrewLabels (a - 1)
      else explanation }

/-! ### Derived predicates and concrete example inputs -/

/-- The six section keys the decoder can produce. -/
def secKeys : List String := keySections.map SecPat.key

/-- Well-formed entry list: distinct question numbers, answers in `[1,4]`,
question numbers positive. -/
def GoodEntries (es : Entries) : Prop :=
  (es.map Prod.fst).Nodup ∧ ∀ p ∈ es, 1 ≤ p.2 ∧ p.2 ≤ 4 ∧ 1 ≤ p.1

/-- Well-formed decoded key: every section is one of the six canonical keys
and carries well-formed entries. -/
def GoodKey (ak : AnswerKey) : Prop :=
  ∀ p ∈ ak, p.1 ∈ secKeys ∧ GoodEntries p.2

/-- Decoder state invariant. -/
def GoodState (st : KeyState) : Prop :=
  GoodKey st.akey ∧ (∀ s, st.cur = some s → s ∈ secKeys) ∧
    ∀ qs, st.qn = some qs → ∀ q ∈ qs, 1 ≤ q

/-- Empty-or-non-whitespace-head lists (the shape `dropWhile isWS`
produces). -/
def headNonWS (l : List Char) : Prop :=
  ∀ c cs, l = c :: cs → isWS c = false

/-- Every whitespace character of the list is a plain space. -/
def allWsSpace (l : List Char) : Prop :=
  ∀ c ∈ l, isWS c = true → c = ' '

/-- No two adjacent whitespace characters. -/
def noAdjWS : List Char → Prop
  | [] => True
  | [_] => True
  | a :: b :: rest => ¬(isWS a = true ∧ isWS b = true) ∧ noAdjWS (b :: rest)

/-- The sentinel row of the testable-properties section of the spec. -/
def sentinel23 : String := "1234567891011121314151617181920212223"

/-- An answer-key block holding one section row, the 23-question sentinel row
and a given answer line. -/
def c3text (p : SecPat) (ds : List Char) : List Char :=
  keyMarker.data ++ ('\n' :: (p.pattern.data ++ ('\n' :: (sentinel23.data ++ ('\n' :: ds)))))

def verbal1Pat : SecPat := ⟨"חשיבה מילולית - פרק ראשון", "verbal-1"⟩

/-- Extraction maps that find nothing. -/
def noBlocks : String → Nat → Option Block := fun _ _ => none

/-- Explanation map that finds nothing. -/
def noExplanations : String → Nat → Option String := fun _ _ => none

def nlStr : String := "\n"
def digits10a : String := "12345678910"
def digits10b : String := "1111011111"
def digits10c : String := "1111111111"
def digits10d : String := "2222222222"

/-- Answer-key block whose answer line contains the digit `0`, which the
decoder drops. -/
def c2Text : List Char :=
  (keyMarker ++ nlStr ++ verbal1Pat.pattern ++ nlStr ++ digits10a ++ nlStr ++ digits10b).data

def verbal2Pat : SecPat := ⟨"חשיבה מילולית - פרק שני", "verbal-2"⟩

/-- Answer-key block with ten questions in each verbal section. -/
def c9Text : List Char :=
  (keyMarker ++ nlStr ++ verbal1Pat.pattern ++ nlStr ++ digits10a ++ nlStr ++ digits10c ++
   nlStr ++ verbal2Pat.pattern ++ nlStr ++ digits10a ++ nlStr ++ digits10d ++ nlStr ++ endMarker).data

/-- Answer-key block with one keyed section of ten questions. -/
def c7Text : List Char :=
  (keyMarker ++ nlStr ++ verbal1Pat.pattern ++ nlStr ++ digits10a ++ nlStr ++ digits10d).data

def seasonId : String := "spring-2025"
def seasonHe : String := "אביב 2025"

def filler1000 : List Char := List.replicate 1000 'x'
def english1Marker : String := "אנגלית - פרק ראשון"
def english2Marker : String := "אנגלית - פרק שני"
def midFiller : String := " middle "
def tailFiller : String := " blah blah "

/-- Document in which the marker of english-2 occurs before the marker of
english-1 (both after the table-of-contents skip). -/
def c5BadText : List Char :=
  filler1000 ++ tocLit.data ++ english2Marker.data ++ midFiller.data ++ english1Marker.data

/-- Document in which the six markers occur in canonical order. -/
def c5GoodText : List Char :=
  filler1000 ++ tocLit.data ++ english1Marker.data ++ tailFiller.data ++
    english2Marker.data ++ midFiller.data

def c8Line : String := "a )1( b )1("

/-- All option indices (of every pattern stage) found in a line, without
repetitions. -/
def distinctIndices (l : List Char) : List Nat :=
  (((rtlScan l).map Prod.fst ++ (ltrScan l).map Prod.fst ++
    (mixedScan l).map Prod.fst).dedup)

def c4Input : String := "a - 1 - b"
def c4Clean : String := "hello  world"

/-- The decoded entries of `c2Text`: question 5's digit is `0`, so it is
dropped and the run has a gap. -/
def c2Entries : Entries :=
  [(1, 1), (2, 1), (3, 1), (4, 1), (6, 1), (7, 1), (8, 1), (9, 1), (10, 1)]

/-- The first section definition (verbal-1). -/
def sd1 : SectionDef := ⟨"verbal-1", "verbal", 1, "חשיבה מילולית - פרק ראשון", "he"⟩

def c6Akey : AnswerKey := [("verbal-1", [(1, 2)])]

def c6Block : Block := ⟨"מה המספר הבא בסדרה", "10", "12", "16", "18"⟩

/-- An extraction map that recovers `c6Block` everywhere. -/
def c6Ex : String → Nat → Option Block := fun _ _ => some c6Block

/-- A plain text line with no option pattern at all. -/
def c8Plain : String := "hello"

/-- The recognizer's output on `c8Line`: the repeated index overwrote slot 1. -/
def c8Opts : List (List Char) := [['b'], [], [], []]

def c10Prefix1 : String := "short prefix "
def c10Prefix2 : String := "a completely different and longer prefix "
def c10Text1 : List Char := c10Prefix1.data ++ c2Text
def c10Text2 : List Char := c10Prefix2.data ++ c2Text

/-! ## Lemmas: prefixes and containment -/

theorem leadsWith_mem {p l : List Char} (h : leadsWith p l = true) : ∀ c ∈ p, c ∈ l := by
  induction p generalizing l with
  | nil => intro c hc; cases hc
  | cons a p ih =>
    cases l with
    | nil => simp [leadsWith] at h
    | cons b l =>
      simp only [leadsWith, Bool.and_eq_true, decide_eq_true_eq] at h
      intro c hc
      rcases List.mem_cons.mp hc with rfl | hc
      · exact h.1 ▸ List.mem_cons_self _ _
      · exact List.mem_cons_of_mem _ (ih h.2 c hc)

theorem containsSub_mem {p l : List Char} (h : containsSub p l = true) : ∀ c ∈ p, c ∈ l := by
  induction l with
  | nil =>
    intro c hc
    simp only [containsSub] at h
    exact leadsWith_mem h c hc
  | cons b l ih =>
    simp only [containsSub, Bool.or_eq_true] at h
    rcases h with h | h
    · exact leadsWith_mem h
    · exact fun c hc => List.mem_cons_of_mem _ (ih h c hc)

theorem leadsWith_append_self (p r : List Char) : leadsWith p (p ++ r) = true := by
  induction p with
  | nil => rfl
  | cons a p ih => simp [leadsWith, ih]

/-! ## Lemmas: trimming -/

theorem trimL_headNonWS (l : List Char) : headNonWS (trimL l) := by
  induction l with
  | nil => intro c cs h; cases h
  | cons a l ih =>
    intro c cs h
    by_cases hw : isWS a
    · rw [trimL, List.dropWhile_cons, if_pos hw] at h
      exact ih c cs h
    · rw [trimL, List.dropWhile_cons, if_neg hw] at h
      cases h
      simpa using hw

theorem trimL_of_headNonWS {l : List Char} (h : headNonWS l) : trimL l = l := by
  cases l with
  | nil => rfl
  | cons a l =>
    have := h a l rfl
    rw [trimL, List.dropWhile_cons, if_neg (by simp [this])]

theorem trimR_head {l : List Char} {c : Char} {cs : List Char}
    (h : trimR l = c :: cs) : ∃ cs', l = c :: cs' := by
  cases l with
  | nil => cases h
  | cons a l =>
    rw [trimR] at h
    rcases hr : trimR l with - | ⟨d, ds⟩
    · rw [hr] at h
      by_cases hw : isWS a
      · rw [if_pos hw] at h; cases h
      · rw [if_neg hw] at h; cases h; exact ⟨l, rfl⟩
    · rw [hr] at h
      cases h
      exact ⟨l, rfl⟩

theorem trimR_idem (l : List Char) : trimR (trimR l) = trimR l := by
  induction l with
  | nil => rfl
  | cons a l ih =>
    rcases hr : trimR l with - | ⟨d, ds⟩
    · by_cases hw : isWS a
      · have h1 : trimR (a :: l) = [] := by rw [trimR, hr, if_pos hw]
        rw [h1]; rfl
      · have h1 : trimR (a :: l) = [a] := by rw [trimR, hr, if_neg hw]
        rw [h1, trimR]
        simp [trimR, hw]
    · have hdd : trimR (d :: ds) = d :: ds := hr ▸ ih
      have h1 : trimR (a :: l) = a :: d :: ds := by rw [trimR, hr]
      rw [h1, trimR, hdd]

theorem headNonWS_trimR {l : List Char} (h : headNonWS l) : headNonWS (trimR l) := by
  intro c cs hc
  obtain ⟨cs', hcs'⟩ := trimR_head hc
  exact h c cs' hcs'

theorem trimBoth_idem (l : List Char) : trimBoth (trimBoth l) = trimBoth l := by
  rw [trimBoth, trimBoth, trimL_of_headNonWS (headNonWS_trimR (trimL_headNonWS l)),
    trimR_idem]

theorem mem_of_mem_trimL {c : Char} {l : List Char} (h : c ∈ trimL l) : c ∈ l :=
  (List.dropWhile_sublist _).mem h

theorem mem_of_mem_trimR {c : Char} {l : List Char} (h : c ∈ trimR l) : c ∈ l := by
  induction l with
  | nil => cases h
  | cons a l ih =>
    rw [trimR] at h
    rcases hr : trimR l with - | ⟨d, ds⟩
    · rw [hr] at h
      by_cases hw : isWS a
      · rw [if_pos hw] at h; cases h
      · rw [if_neg hw] at h
        rcases List.mem_cons.mp h with rfl | h'
        · exact List.mem_cons_self _ _
        · cases h'
    · rw [hr] at h
      rcases List.mem_cons.mp h with rfl | h'
      · exact List.mem_cons_self _ _
      · exact List.mem_cons_of_mem _ (ih (hr ▸ h'))

theorem noAdjWS_tail {a : Char} {l : List Char} (h : noAdjWS (a :: l)) : noAdjWS l := by
  cases l with
  | nil => trivial
  | cons b l => exact h.2

theorem noAdjWS_cons {x : Char} {l : List Char}
    (hhead : ∀ d ds, l = d :: ds → ¬(isWS x = true ∧ isWS d = true))
    (h : noAdjWS l) : noAdjWS (x :: l) := by
  cases l with
  | nil => trivial
  | cons d ds => exact ⟨hhead d ds rfl, h⟩

theorem allWsSpace_trimL {l : List Char} (h : allWsSpace l) : allWsSpace (trimL l) :=
  fun c hc hw => h c (mem_of_mem_trimL hc) hw

theorem allWsSpace_trimR {l : List Char} (h : allWsSpace l) : allWsSpace (trimR l) :=
  fun c hc hw => h c (mem_of_mem_trimR hc) hw

theorem noAdjWS_trimL {l : List Char} (h : noAdjWS l) : noAdjWS (trimL l) := by
  induction l with
  | nil => trivial
  | cons a l ih =>
    by_cases hw : isWS a
    · rw [trimL, List.dropWhile_cons, if_pos hw]
      exact ih (noAdjWS_tail h)
    · rw [trimL, List.dropWhile_cons, if_neg hw]
      exact h

theorem noAdjWS_trimR {l : List Char} (h : noAdjWS l) : noAdjWS (trimR l) := by
  induction l with
  | nil => trivial
  | cons a l ih =>
    rw [trimR]
    rcases hr : trimR l with - | ⟨d, ds⟩
    · by_cases hw : isWS a
      · rw [if_pos hw]; trivial
      · rw [if_neg hw]; trivial
    · refine noAdjWS_cons ?_ (hr ▸ ih (noAdjWS_tail h))
      rintro e es he
      cases he
      obtain ⟨cs', hcs'⟩ := trimR_head hr
      subst hcs'
      exact h.1

/-! ## Lemmas: whitespace collapsing -/

theorem collapseAux_allWsSpace (l : List Char) : ∀ b, allWsSpace (collapseAux b l) := by
  induction l with
  | nil => intro b c hc; cases hc
  | cons a l ih =>
    intro b c hc hw
    rw [collapseAux] at hc
    by_cases hwa : isWS a
    · rw [if_pos hwa] at hc
      by_cases hb : b
      · subst hb
        rw [if_pos rfl] at hc
        exact ih true c hc hw
      · simp only [hb, if_false] at hc
        rcases List.mem_cons.mp hc with rfl | hc
        · rfl
        · exact ih true c hc hw
    · rw [if_neg hwa] at hc
      rcases List.mem_cons.mp hc with rfl | hc
      · simp [hw] at hwa
      · exact ih false c hc hw

theorem collapseAux_noAdj_head (l : List Char) :
    ∀ b, noAdjWS (collapseAux b l) ∧ (b = true → headNonWS (collapseAux b l)) := by
  induction l with
  | nil => exact fun b => ⟨trivial, fun _ => fun c cs h => by cases h⟩
  | cons a l ih =>
    intro b
    rw [collapseAux]
    by_cases hwa : isWS a
    · rw [if_pos hwa]
      cases b with
      | true =>
        rw [if_pos rfl]
        exact ih true
      | false =>
        rw [if_neg Bool.false_ne_true]
        constructor
        · refine noAdjWS_cons (fun d ds hd h2 => ?_) (ih true).1
          rw [(ih true).2 rfl d ds hd] at h2
          exact Bool.false_ne_true h2.2
        · intro hbt; exact absurd hbt Bool.false_ne_true
    · rw [if_neg hwa]
      constructor
      · refine noAdjWS_cons (fun d ds _ h2 => ?_) (ih false).1
        rw [h2.1] at hwa
        exact hwa rfl
      · intro _ c cs hc
        cases hc
        simpa using hwa

theorem collapse_fix (l : List Char) (h1 : allWsSpace l) (h2 : noAdjWS l) :
    collapseAux false l = l ∧ (headNonWS l → collapseAux true l = l) := by
  induction l with
  | nil => exact ⟨rfl, fun _ => rfl⟩
  | cons a l ih =>
    have h1' : allWsSpace l := fun c hc => h1 c (List.mem_cons_of_mem _ hc)
    have h2' : noAdjWS l := noAdjWS_tail h2
    by_cases hwa : isWS a
    · have ha : a = ' ' := h1 a (List.mem_cons_self _ _) (by simpa using hwa)
      have hlhead : headNonWS l := by
        rintro d ds rfl
        by_contra hd
        exact h2.1 ⟨by simpa using hwa, by simpa using hd⟩
      have htrue : collapseAux true l = l := (ih h1' h2').2 hlhead
      constructor
      · rw [collapseAux, if_pos hwa]
        simp only [if_neg (Bool.false_ne_true)]
        rw [htrue, ha]
      · intro hh
        exact absurd (hh a l rfl) (by simp [hwa])
    · constructor
      · rw [collapseAux, if_neg hwa, (ih h1' h2').1]
      · intro _
        rw [collapseAux, if_neg hwa, (ih h1' h2').1]

theorem collapse_of_collapsed {l : List Char} (h1 : allWsSpace l) (h2 : noAdjWS l) :
    collapse l = l :=
  (collapse_fix l h1 h2).1

/-! ## Claim C4 support -/

theorem cleanText_fixes (x : List Char)
    (h : cleanRemovals (trimBoth (collapse x)) = trimBoth (collapse x)) :
    cleanText x = trimBoth (collapse x) := by
  by_cases hx : x = []
  · subst hx; rfl
  · rw [cleanText, if_neg hx, h, trimBoth_idem]

/-- Claim C4 (corrected): the normalizer is not idempotent in general; it is
idempotent on every input on which the boilerplate-removal passes act
trivially (its cleaned form contains no removable pattern occurrence). -/
theorem c4_amended (x : List Char)
    (h : cleanRemovals (trimBoth (collapse x)) = trimBoth (collapse x)) :
    cleanText (cleanText x) = cleanText x := by
  have hT := cleanText_fixes x h
  rw [hT]
  by_cases hT0 : trimBoth (collapse x) = []
  · rw [hT0]; rfl
  · have hsp : allWsSpace (collapse x) := collapseAux_allWsSpace x false
    have hadj : noAdjWS (collapse x) := (collapseAux_noAdj_head x false).1
    have hspT : allWsSpace (trimBoth (collapse x)) :=
      allWsSpace_trimR (allWsSpace_trimL hsp)
    have hadjT : noAdjWS (trimBoth (collapse x)) :=
      noAdjWS_trimR (noAdjWS_trimL hadj)
    rw [cleanText, if_neg hT0, collapse_of_collapsed hspT hadjT, trimBoth_idem, h,
      trimBoth_idem]

/-- Claim C4 counterexample: removing the page footer `- 1 -` from
`a - 1 - b` leaves a double space, so a second normalization pass changes the
string again. -/
theorem c4_counterexample :
    cleanText (cleanText c4Input.data) ≠ cleanText c4Input.data := by decide

/-- Claim C4 witness: on a pattern-free input the hypothesis of `c4_amended`
holds and normalization is idempotent. -/
theorem c4_witness :
    cleanRemovals (trimBoth (collapse c4Clean.data)) = trimBoth (collapse c4Clean.data) ∧
      cleanText (cleanText c4Clean.data) = cleanText c4Clean.data :=
  ⟨by decide, c4_amended c4Clean.data (by decide)⟩

/-! ## Lemmas: index scanning (`indexOf`) -/

theorem idxAux_ge {pat : List Char} {i j : Nat} {l : List Char}
    (h : idxAux pat i l = some j) : i ≤ j := by
  induction l generalizing i with
  | nil =>
    rw [idxAux] at h
    by_cases hp : pat.isEmpty
    · rw [if_pos hp] at h; cases h; exact le_refl _
    · rw [if_neg hp] at h; cases h
  | cons c rest ih =>
    rw [idxAux] at h
    by_cases hl : leadsWith pat (c :: rest) = true
    · rw [if_pos hl] at h; cases h; exact le_refl _
    · rw [if_neg hl] at h
      exact Nat.le_of_succ_le (ih h)

theorem idxAux_sound {pat : List Char} {i j : Nat} {l : List Char}
    (h : idxAux pat i l = some j) : leadsWith pat (l.drop (j - i)) = true := by
  induction l generalizing i with
  | nil =>
    rw [idxAux] at h
    by_cases hp : pat.isEmpty
    · rw [if_pos hp] at h
      cases pat with
      | nil => simp [leadsWith]
      | cons a p => simp [List.isEmpty] at hp
    · rw [if_neg hp] at h; cases h
  | cons c rest ih =>
    rw [idxAux] at h
    by_cases hl : leadsWith pat (c :: rest) = true
    · rw [if_pos hl] at h
      cases h
      simpa using hl
    · rw [if_neg hl] at h
      have hj := idxAux_ge h
      have := ih h
      have hdrop : (c :: rest).drop (j - i) = rest.drop (j - (i + 1)) := by
        have h1 : j - i = (j - (i + 1)) + 1 := by omega
        rw [h1, List.drop_succ_cons]
      rw [hdrop]
      exact this

theorem idxAux_complete {pat : List Char} {m : Nat} {l : List Char}
    (hocc : leadsWith pat (l.drop m) = true) (hpat : pat ≠ []) :
    ∀ i, ∃ j, idxAux pat i l = some j ∧ j ≤ i + m := by
  induction l generalizing m with
  | nil =>
    exfalso
    rw [List.drop_nil] at hocc
    cases pat with
    | nil => exact hpat rfl
    | cons a p => simp [leadsWith] at hocc
  | cons c rest ih =>
    intro i
    by_cases hl : leadsWith pat (c :: rest) = true
    · exact ⟨i, by rw [idxAux, if_pos hl], Nat.le_add_right _ _⟩
    · cases m with
      | zero =>
        rw [List.drop_zero] at hocc
        exact absurd hocc hl
      | succ m' =>
        rw [List.drop_succ_cons] at hocc
        obtain ⟨j, hj, hle⟩ := ih hocc (i + 1)
        exact ⟨j, by rw [idxAux, if_neg hl]; exact hj, by omega⟩

theorem indexOfFrom_ge {pat text : List Char} {s j : Nat}
    (h : indexOfFrom pat text s = some j) : s ≤ j :=
  idxAux_ge h

theorem indexOfFrom_sound {pat text : List Char} {s j : Nat}
    (h : indexOfFrom pat text s = some j) : leadsWith pat (text.drop j) = true := by
  have hs := idxAux_ge h
  have := idxAux_sound h
  rwa [List.drop_drop, Nat.add_sub_cancel' hs] at this

theorem indexOfFrom_complete {pat text : List Char} {s m : Nat}
    (hocc : leadsWith pat (text.drop m) = true) (hpat : pat ≠ []) (hsm : s ≤ m) :
    ∃ j, indexOfFrom pat text s = some j ∧ j ≤ m := by
  have hocc' : leadsWith pat ((text.drop s).drop (m - s)) = true := by
    rwa [List.drop_drop, Nat.add_sub_cancel' hsm]
  obtain ⟨j, hj, hle⟩ := idxAux_complete hocc' hpat s
  exact ⟨j, hj, by omega⟩

/-- `indexOf` at the start of a text beginning with the pattern. -/
theorem indexOfFrom_self_lead {pat : List Char} (hpat : pat ≠ []) (rest : List Char) :
    indexOfFrom pat (pat ++ rest) 0 = some 0 := by
  cases pat with
  | nil => exact absurd rfl hpat
  | cons a p =>
    have hl : leadsWith (a :: p) (a :: (p ++ rest)) = true :=
      leadsWith_append_self (a :: p) rest
    rw [indexOfFrom, List.drop_zero, List.cons_append, idxAux, if_pos hl]

/-! ## Lemmas: marker search over variants -/

theorem fsm_fold_origin {text : List Char} {s : Nat} :
    ∀ (vs : List String) (acc : Option Nat) (j : Nat),
      vs.foldl
          (fun acc v =>
            match indexOfFrom v.data text s, acc with
            | some i, some m => some (min i m)
            | some i, none => some i
            | none, a => a)
          acc = some j →
      (∃ v ∈ vs, indexOfFrom v.data text s = some j) ∨ acc = some j := by
  intro vs
  induction vs with
  | nil => exact fun acc j h => Or.inr h
  | cons v vs ih =>
    intro acc j h
    rw [List.foldl_cons] at h
    rcases ih _ j h with ⟨w, hw, hwj⟩ | hacc
    · exact Or.inl ⟨w, List.mem_cons_of_mem _ hw, hwj⟩
    · rcases hv : indexOfFrom v.data text s with - | i <;> rw [hv] at hacc
      · exact Or.inr hacc
      · rcases ha : acc with - | m <;> rw [ha] at hacc
        · cases hacc
          exact Or.inl ⟨v, List.mem_cons_self _ _, hv⟩
        · cases hacc
          rcases le_total i m with hle | hle
          · exact Or.inl ⟨v, List.mem_cons_self _ _, by rw [min_eq_left hle]; exact hv⟩
          · exact Or.inr (by rw [min_eq_right hle])

theorem fsm_fold_acc_le {text : List Char} {s : Nat} :
    ∀ (vs : List String) (a : Nat),
      ∃ j, vs.foldl
          (fun acc v =>
            match indexOfFrom v.data text s, acc with
            | some i, some m => some (min i m)
            | some i, none => some i
            | none, a => a)
          (some a) = some j ∧ j ≤ a := by
  intro vs
  induction vs with
  | nil => exact fun a => ⟨a, rfl, le_refl _⟩
  | cons v vs ih =>
    intro a
    rw [List.foldl_cons]
    rcases hv : indexOfFrom v.data text s with - | i
    · exact ih a
    · obtain ⟨j, hj, hle⟩ := ih (min i a)
      exact ⟨j, hj, le_trans hle (Nat.min_le_right _ _)⟩

theorem fsm_fold_le {text : List Char} {s : Nat} :
    ∀ (vs : List String) (acc : Option Nat) (v : String) (m : Nat), v ∈ vs →
      indexOfFrom v.data text s = some m →
      ∃ j, vs.foldl
          (fun acc v =>
            match indexOfFrom v.data text s, acc with
            | some i, some m => some (min i m)
            | some i, none => some i
            | none, a => a)
          acc = some j ∧ j ≤ m := by
  intro vs
  induction vs with
  | nil => intro acc v m hv; cases hv
  | cons w vs ih =>
    intro acc v m hv hm
    rw [List.foldl_cons]
    rcases List.mem_cons.mp hv with rfl | hv'
    · rw [hm]
      rcases acc with - | a
    -- the accumulator after this step is at most `m`; the rest of the fold
    -- can only decrease it
      · obtain ⟨j, hj, hle⟩ := fsm_fold_acc_le vs m
        exact ⟨j, hj, hle⟩
      · obtain ⟨j, hj, hle⟩ := fsm_fold_acc_le vs (min m a)
        exact ⟨j, hj, le_trans hle (Nat.min_le_left _ _)⟩
    · exact ih _ v m hv' hm

theorem findSectionMarker_origin {text : List Char} {marker : String} {s j : Nat}
    (h : findSectionMarker text marker s = some j) :
    ∃ v ∈ sectionVariants marker, indexOfFrom v.data text s = some j := by
  rcases fsm_fold_origin (sectionVariants marker) none j h with h' | h'
  · exact h'
  · cases h'

theorem findSectionMarker_le {text : List Char} {marker : String} {s m : Nat}
    {v : String} (hv : v ∈ sectionVariants marker)
    (hm : indexOfFrom v.data text s = some m) :
    ∃ j, findSectionMarker text marker s = some j ∧ j ≤ m :=
  fsm_fold_le (sectionVariants marker) none v m hv hm

/-! ## Claim C5 support -/

theorem sectionEnd2_le (text : List Char) (s e1 : Nat) : sectionEnd2 text s e1 ≤ e1 := by
  rw [sectionEnd2]
  split
  · split <;> omega
  · exact le_refl _

theorem sectionVariants_ne_nil :
    ∀ m ∈ sectionOrder, ∀ v ∈ sectionVariants m, v.data ≠ [] := by decide

/-- Claim C5 (corrected): the end boundary of section `k` is at most the
start boundary of section `k+1` **provided** the start of `k+1` lies at or
after `k`'s start plus `k`'s marker length (the markers occur in canonical
order); `c5_counterexample` shows the unconditional claim fails. -/
theorem c5_amended (text : List Char) (k : Nat) (mk mk1 : String)
    (sk ek sk1 ek1 : Nat)
    (hk : k ≤ 4)
    (hmk : sectionOrder.get? k = some mk)
    (hmk1 : sectionOrder.get? (k + 1) = some mk1)
    (hbk : hebrewSectionBounds text k = some (sk, ek))
    (hbk1 : hebrewSectionBounds text (k + 1) = some (sk1, ek1))
    (hord : sk + mk.length ≤ sk1) :
    ek ≤ sk1 := by
  simp only [hebrewSectionBounds, hmk] at hbk
  simp only [hebrewSectionBounds, hmk1] at hbk1
  rcases hfs : findSectionMarker text mk (tocSearchStart text) with - | s
  · rw [hfs] at hbk; cases hbk
  rcases hfs1 : findSectionMarker text mk1 (tocSearchStart text) with - | s1
  · rw [hfs1] at hbk1; cases hbk1
  rw [hfs] at hbk
  rw [hfs1] at hbk1
  rw [Option.some.injEq, Prod.mk.injEq] at hbk hbk1
  obtain ⟨hsk, hek⟩ := hbk
  obtain ⟨hsk1, -⟩ := hbk1
  subst hsk hsk1
  rw [← hek]
  -- the start of section k+1 is an occurrence of one of its variants
  obtain ⟨v, hv, hvj⟩ := findSectionMarker_origin hfs1
  have hvocc := indexOfFrom_sound hvj
  have hvne : v.data ≠ [] :=
    sectionVariants_ne_nil mk1 (List.get?_mem hmk1) v hv
  -- so the forward search from sk + |mk| finds the next marker at or before it
  obtain ⟨j, hj, hjle⟩ := indexOfFrom_complete hvocc hvne hord
  obtain ⟨j', hj', hj'le⟩ := findSectionMarker_le hv hj
  have hklt : k < sectionOrder.length - 1 := by
    simp only [sectionOrder, List.length]
    omega
  have he1 : sectionEnd1 text k mk s = j' := by
    rw [sectionEnd1, if_pos hklt]
    simp only [hmk1, hj']
  calc sectionEnd2 text s (sectionEnd1 text k mk s)
      ≤ sectionEnd1 text k mk s := sectionEnd2_le _ _ _
    _ = j' := he1
    _ ≤ j := hj'le
    _ ≤ s1 := hjle

/-- Claim C5 counterexample: in `c5BadText` the marker of english-2 occurs
before the marker of english-1, and the computed end of english-1 (the text
length, 1053) exceeds the computed start of english-2 (1011). -/
theorem c5_counterexample :
    hebrewSectionBounds c5BadText 4 = some (1035, 1053) ∧
      hebrewSectionBounds c5BadText 5 = some (1011, 1053) ∧
      ¬(1053 ≤ 1011) := by
  refine ⟨by decide, by decide, by decide⟩

/-- Claim C5 witness: on a document with markers in canonical order the
hypothesis of `c5_amended` holds and the boundary invariant follows. -/
theorem c5_witness : (1040 : Nat) ≤ 1040 ∧ 1011 + 18 ≤ 1040 :=
  ⟨c5_amended c5GoodText 4 english1Marker english2Marker 1011 1040 1040 1064
      (by omega) (by decide) (by decide) (by decide) (by decide) (by decide),
    by omega⟩

/-! ## Claim C10 -/

/-- Claim C10 (confirmed): the decoder's output depends only on the suffix of
the text from the first occurrence of the answer-key marker: two texts that
agree from that occurrence onward decode identically. -/
theorem c10_suffix_only (t1 t2 s : List Char)
    (h1 : markerSuffix t1 = some s) (h2 : markerSuffix t2 = some s) :
    parseAnswerKey t1 = parseAnswerKey t2 := by
  rw [markerSuffix] at h1 h2
  rcases hi1 : indexOfFrom keyMarker.data t1 0 with - | i1
  · rw [hi1] at h1; cases h1
  rcases hi2 : indexOfFrom keyMarker.data t2 0 with - | i2
  · rw [hi2] at h2; cases h2
  rw [hi1, Option.map_some'] at h1
  rw [hi2, Option.map_some'] at h2
  injection h1 with h1
  injection h2 with h2
  rw [parseAnswerKey, parseAnswerKey]
  simp only [hi1, hi2, h1, h2]

/-- Claim C10 witness: two texts with different prefixes but the same
marker-suffix decode to the same key. -/
theorem c10_witness : parseAnswerKey c10Text1 = parseAnswerKey c10Text2 :=
  c10_suffix_only c10Text1 c10Text2 c2Text (by decide) (by decide)

/-! ## Lemmas: association lists of the decoder -/

theorem mem_upsert {es : Entries} {q a : Nat} {p : Nat × Nat}
    (h : p ∈ upsert es q a) : p = (q, a) ∨ p ∈ es := by
  induction es with
  | nil =>
    rw [upsert] at h
    rcases List.mem_singleton.mp h with rfl
    exact Or.inl rfl
  | cons e rest ih =>
    obtain ⟨q0, a0⟩ := e
    rw [upsert] at h
    by_cases hq : q0 = q
    · rw [if_pos hq] at h
      rcases List.mem_cons.mp h with rfl | h'
      · exact Or.inl rfl
      · exact Or.inr (List.mem_cons_of_mem _ h')
    · rw [if_neg hq] at h
      rcases List.mem_cons.mp h with rfl | h'
      · exact Or.inr (List.mem_cons_self _ _)
      · rcases ih h' with h'' | h''
        · exact Or.inl h''
        · exact Or.inr (List.mem_cons_of_mem _ h'')

theorem mem_map_fst_upsert {es : Entries} {q a x : Nat}
    (h : x ∈ (upsert es q a).map Prod.fst) : x ∈ es.map Prod.fst ∨ x = q := by
  rcases List.mem_map.mp h with ⟨p, hp, rfl⟩
  rcases mem_upsert hp with rfl | hp'
  · exact Or.inr rfl
  · exact Or.inl (List.mem_map_of_mem _ hp')

theorem GoodEntries_upsert {es : Entries} (h : GoodEntries es) {q a : Nat}
    (ha1 : 1 ≤ a) (ha2 : a ≤ 4) (hq : 1 ≤ q) : GoodEntries (upsert es q a) := by
  obtain ⟨hnd, hv⟩ := h
  constructor
  · clear hv
    induction es with
    | nil => simp [upsert]
    | cons e rest ih =>
      obtain ⟨q0, a0⟩ := e
      rw [upsert]
      by_cases hq0 : q0 = q
      · rw [if_pos hq0]
        subst hq0
        simpa using hnd
      · rw [if_neg hq0]
        simp only [List.map_cons, List.nodup_cons] at hnd ⊢
        refine ⟨fun hc => ?_, ih hnd.2⟩
        rcases mem_map_fst_upsert hc with hc' | hc'
        · exact hnd.1 hc'
        · exact hq0 hc'
  · intro p hp
    rcases mem_upsert hp with rfl | hp'
    · exact ⟨ha1, ha2, hq⟩
    · exact hv p hp'

theorem lookupEntry_mem {es : Entries} {q a : Nat}
    (h : lookupEntry es q = some a) : (q, a) ∈ es := by
  induction es with
  | nil => cases h
  | cons e rest ih =>
    obtain ⟨q0, a0⟩ := e
    rw [lookupEntry] at h
    by_cases hq : q0 = q
    · rw [if_pos hq] at h
      cases h
      subst hq
      exact List.mem_cons_self _ _
    · rw [if_neg hq] at h
      exact List.mem_cons_of_mem _ (ih h)

theorem mem_lookupEntry {es : Entries} {q a : Nat}
    (hnd : (es.map Prod.fst).Nodup) (h : (q, a) ∈ es) : lookupEntry es q = some a := by
  induction es with
  | nil => cases h
  | cons e rest ih =>
    obtain ⟨q0, a0⟩ := e
    simp only [List.map_cons, List.nodup_cons] at hnd
    rcases List.mem_cons.mp h with he | h'
    · cases he
      rw [lookupEntry, if_pos rfl]
    · rw [lookupEntry]
      by_cases hq : q0 = q
      · exfalso
        subst hq
        exact hnd.1 (List.mem_map_of_mem _ h')
      · rw [if_neg hq]
        exact ih hnd.2 h'

theorem lookupEntry_none_iff {es : Entries} {q : Nat} :
    lookupEntry es q = none ↔ q ∉ es.map Prod.fst := by
  induction es with
  | nil => simp [lookupEntry]
  | cons e rest ih =>
    obtain ⟨q0, a0⟩ := e
    rw [lookupEntry]
    by_cases hq : q0 = q
    · subst hq
      simp
    · rw [if_neg hq]
      simp only [List.map_cons, List.mem_cons]
      rw [ih]
      constructor
      · rintro h (rfl | hc)
        · exact hq rfl
        · exact h hc
      · intro h hc
        exact h (Or.inr hc)

theorem exists_lookupEntry_of_mem_keys {es : Entries} {q : Nat}
    (h : q ∈ es.map Prod.fst) : ∃ a, lookupEntry es q = some a := by
  rcases he : lookupEntry es q with - | a
  · exact absurd (lookupEntry_none_iff.mp he) (by simpa using h)
  · exact ⟨a, rfl⟩

theorem upsert_fresh {es : Entries} {q : Nat} (h : lookupEntry es q = none) (a : Nat) :
    upsert es q a = es ++ [(q, a)] := by
  induction es with
  | nil => rfl
  | cons e rest ih =>
    obtain ⟨q0, a0⟩ := e
    rw [lookupEntry] at h
    by_cases hq : q0 = q
    · rw [if_pos hq] at h; cases h
    · rw [if_neg hq] at h
      rw [upsert, if_neg hq, ih h, List.cons_append]

theorem lookupEntry_append_single {es : Entries} {q' : Nat}
    (h : lookupEntry es q' = none) (q a : Nat) :
    lookupEntry (es ++ [(q, a)]) q' = if q = q' then some a else none := by
  induction es with
  | nil => rfl
  | cons e rest ih =>
    obtain ⟨q0, a0⟩ := e
    rw [lookupEntry] at h
    by_cases hq : q0 = q'
    · rw [if_pos hq] at h; cases h
    · rw [if_neg hq] at h
      rw [List.cons_append, lookupEntry, if_neg hq, ih h]

theorem mem_upsertSec {ak : AnswerKey} {s : String} {es : Entries} {p : String × Entries}
    (h : p ∈ upsertSec ak s es) : p = (s, es) ∨ p ∈ ak := by
  induction ak with
  | nil =>
    rw [upsertSec] at h
    rcases List.mem_singleton.mp h with rfl
    exact Or.inl rfl
  | cons e rest ih =>
    obtain ⟨s0, es0⟩ := e
    rw [upsertSec] at h
    by_cases hs : s0 = s
    · rw [if_pos hs] at h
      rcases List.mem_cons.mp h with rfl | h'
      · exact Or.inl rfl
      · exact Or.inr (List.mem_cons_of_mem _ h')
    · rw [if_neg hs] at h
      rcases List.mem_cons.mp h with rfl | h'
      · exact Or.inr (List.mem_cons_self _ _)
      · rcases ih h' with h'' | h''
        · exact Or.inl h''
        · exact Or.inr (List.mem_cons_of_mem _ h'')

theorem lookupSec_upsertSec (ak : AnswerKey) (s : String) (es : Entries) (s' : String) :
    lookupSec (upsertSec ak s es) s' = if s = s' then some es else lookupSec ak s' := by
  induction ak with
  | nil =>
    simp [upsertSec, lookupSec]
  | cons e rest ih =>
    obtain ⟨s0, es0⟩ := e
    rw [upsertSec]
    by_cases hs : s0 = s
    · subst hs
      rw [if_pos rfl, lookupSec, lookupSec]
      by_cases hs' : s0 = s' <;> simp [hs']
    · rw [if_neg hs, lookupSec, lookupSec, ih]
      by_cases hs' : s0 = s'
      · subst hs'
        rw [if_pos rfl, if_pos rfl, if_neg (fun he => hs he.symm)]
      · rw [if_neg hs', if_neg hs']

theorem lookupSec_mem {ak : AnswerKey} {s : String} {es : Entries}
    (h : lookupSec ak s = some es) : (s, es) ∈ ak := by
  induction ak with
  | nil => cases h
  | cons e rest ih =>
    obtain ⟨s0, es0⟩ := e
    rw [lookupSec] at h
    by_cases hs : s0 = s
    · rw [if_pos hs] at h
      cases h
      subst hs
      exact List.mem_cons_self _ _
    · rw [if_neg hs] at h
      exact List.mem_cons_of_mem _ (ih h)

theorem GoodKey_upsertSec {ak : AnswerKey} (h : GoodKey ak) {s : String} {es : Entries}
    (hs : s ∈ secKeys) (hes : GoodEntries es) : GoodKey (upsertSec ak s es) := by
  intro p hp
  rcases mem_upsertSec hp with rfl | hp'
  · exact ⟨hs, hes⟩
  · exact h p hp'

theorem GoodEntries_nil : GoodEntries [] :=
  ⟨List.nodup_nil, fun p hp => absurd hp (List.not_mem_nil p)⟩

theorem GoodKey_getD {ak : AnswerKey} (h : GoodKey ak) (s : String) :
    GoodEntries ((lookupSec ak s).getD []) := by
  rcases hl : lookupSec ak s with - | es
  · exact GoodEntries_nil
  · exact (h _ (lookupSec_mem hl)).2

/-! ## Lemmas: decoder state invariant -/

theorem GoodEntries_saveAnswersLoop :
    ∀ (qs : List Nat) (ds : List Char) (es : Entries), GoodEntries es →
      (∀ q ∈ qs, 1 ≤ q) → GoodEntries (saveAnswersLoop es qs ds) := by
  intro qs
  induction qs with
  | nil => intro ds es hes _; rw [saveAnswersLoop]; exact hes
  | cons q qs ih =>
    intro ds es hes hq
    cases ds with
    | nil => rw [saveAnswersLoop]; exact hes
    | cons c cs =>
      rw [saveAnswersLoop]
      rcases hdv : jsDigitVal c with - | a
      · simp only [hdv]
        exact ih cs es hes fun q' hq' => hq q' (List.mem_cons_of_mem _ hq')
      · simp only [hdv]
        by_cases hb : 1 ≤ a ∧ a ≤ 4
        · rw [if_pos hb]
          exact ih cs _
            (GoodEntries_upsert hes hb.1 hb.2 (hq q (List.mem_cons_self _ _)))
            fun q' hq' => hq q' (List.mem_cons_of_mem _ hq')
        · rw [if_neg hb]
          exact ih cs es hes fun q' hq' => hq q' (List.mem_cons_of_mem _ hq')

theorem greedyAux_ge : ∀ (fuel num : Nat) (l : List Char),
    ∀ q ∈ greedyAux fuel num l, num ≤ q := by
  intro fuel
  induction fuel with
  | zero => intro num l q hq; cases hq
  | succ fuel ih =>
    intro num l q hq
    cases l with
    | nil => cases hq
    | cons c rest =>
      rw [greedyAux] at hq
      by_cases hl : leadsWith (Nat.repr num).data (c :: rest) = true
      · rw [if_pos hl] at hq
        rcases List.mem_cons.mp hq with rfl | hq'
        · exact le_refl _
        · exact Nat.le_of_succ_le (ih (num + 1) _ q hq')
      · rw [if_neg hl] at hq
        cases hq

theorem greedyAux_range' : ∀ (fuel num : Nat) (l : List Char),
    greedyAux fuel num l = List.range' num (greedyAux fuel num l).length := by
  intro fuel
  induction fuel with
  | zero => intro num l; rfl
  | succ fuel ih =>
    intro num l
    cases l with
    | nil => rfl
    | cons c rest =>
      rw [greedyAux]
      by_cases hl : leadsWith (Nat.repr num).data (c :: rest) = true
      · rw [if_pos hl, List.length_cons, List.range'_succ]
        rw [← ih (num + 1)]
      · rw [if_neg hl]; rfl

theorem saveAnswers_akey {st : KeyState} (h : GoodState st) :
    GoodKey (saveAnswers st).akey := by
  rw [saveAnswers]
  rcases hc : st.cur with - | sec
  · simp only [hc]
    exact h.1
  · rcases hq : st.qn with - | qs
    · simp only [hc, hq]
      exact h.1
    · simp only [hc, hq]
      by_cases hcol : st.collected = []
      · rw [if_pos hcol]; exact h.1
      · rw [if_neg hcol]
        exact GoodKey_upsertSec h.1 (h.2.1 sec hc)
          (GoodEntries_saveAnswersLoop qs st.collected _ (GoodKey_getD h.1 sec)
            (h.2.2 qs hq))

theorem saveAnswers_fields (st : KeyState) :
    (saveAnswers st).cur = st.cur ∧ (saveAnswers st).qn = st.qn ∧
      (saveAnswers st).collected = st.collected := by
  rw [saveAnswers]
  rcases hc : st.cur with - | sec
  · simp [hc]
  · rcases hq : st.qn with - | qs
    · simp [hc, hq]
    · simp only [hc, hq]
      by_cases hcol : st.collected = []
      · rw [if_pos hcol]; exact ⟨hc, hq, rfl⟩
      · rw [if_neg hcol]; exact ⟨rfl, rfl, rfl⟩

theorem GoodState_saveAnswers {st : KeyState} (h : GoodState st) :
    GoodState (saveAnswers st) := by
  obtain ⟨h1, h2, h3⟩ := saveAnswers_fields st
  exact ⟨saveAnswers_akey h, fun s hs => h.2.1 s (h1 ▸ hs), fun qs hq => h.2.2 qs (h2 ▸ hq)⟩

theorem findSec_mem {line : List Char} {k : String} (h : findSec line = some k) :
    k ∈ secKeys := by
  rw [findSec] at h
  rcases hf : keySections.find? (fun s => containsSub s.pattern.data line) with - | sp
  · rw [hf] at h; cases h
  · rw [hf] at h
    cases h
    exact List.mem_map_of_mem _ (List.mem_of_find?_eq_some hf)

theorem GoodState_sectionStep {st : KeyState} (h : GoodState st) (line : List Char) :
    GoodState (sectionStep st line) := by
  rw [sectionStep]
  rcases hf : findSec line with - | k
  · simp only [hf]
    exact h
  · simp only [hf]
    refine ⟨GoodKey_upsertSec (saveAnswers_akey h) (findSec_mem hf) GoodEntries_nil,
      fun s hs => ?_, fun qs hq => ?_⟩
    · cases hs; exact findSec_mem hf
    · cases hq

theorem GoodState_accumulate {st : KeyState} (h : GoodState st) (line : List Char) :
    GoodState (accumulate st line) := by
  rw [accumulate]
  rcases hq : st.qn with - | qs
  · simp only [hq]
    exact h
  · simp only [hq]
    have hst' : GoodState
        { akey := st.akey, cur := st.cur, qn := some qs, collected := st.collected ++ line } :=
      ⟨h.1, fun s hs => h.2.1 s hs, fun qs' hq' => by
        injection hq' with he
        subst he
        exact h.2.2 qs hq⟩
    by_cases hl : qs.length ≤ (st.collected ++ line).length
    · rw [if_pos hl]
      refine ⟨saveAnswers_akey hst', fun s hs => ?_, fun qs' hq' => Option.noConfusion hq'⟩
      exact hst'.2.1 s ((saveAnswers_fields _).1 ▸ hs)
    · rw [if_neg hl]
      exact hst'

theorem GoodState_digitStep {st : KeyState} (h : GoodState st) (line : List Char) :
    GoodState (digitStep st line) := by
  rw [digitStep]
  by_cases h1 : st.cur.isSome = true ∧ isDigitsLine line = true ∧ 10 < line.length
  · rw [if_pos h1]
    by_cases hs : leadsWith sentinelPre.data line = true
    · rw [if_pos hs]
      refine ⟨h.1, h.2.1, fun qs hq => ?_⟩
      cases hq
      exact fun q hq' => greedyAux_ge _ _ _ q hq'
    · rw [if_neg hs]
      by_cases hq : st.qn.isSome = true
      · rw [if_pos hq]; exact GoodState_accumulate h line
      · rw [if_neg hq]; exact h
  · rw [if_neg h1]
    by_cases h2 : st.cur.isSome = true ∧ st.qn.isSome = true ∧ isDigitsLine line = true
    · rw [if_pos h2]; exact GoodState_accumulate h line
    · rw [if_neg h2]; exact h

theorem GoodKey_scanLines : ∀ (lines : List (List Char)) (st : KeyState),
    GoodState st → GoodKey (scanLines st lines) := by
  intro lines
  induction lines with
  | nil => exact fun st h => h.1
  | cons l ls ih =>
    intro st h
    rw [scanLines]
    have h2 : GoodState (digitStep (sectionStep st (trimBoth l)) (trimBoth l)) :=
      GoodState_digitStep (GoodState_sectionStep h (trimBoth l)) (trimBoth l)
    by_cases hend : containsSub endMarker.data (trimBoth l) = true
    · rw [if_pos hend]
      exact saveAnswers_akey h2
    · rw [if_neg hend]
      exact ih _ h2

theorem GoodState_init : GoodState initKeyState := by
  refine ⟨fun p hp => absurd hp (List.not_mem_nil p), fun s hs => ?_, fun qs hq => ?_⟩
  · cases hs
  · cases hq

theorem GoodKey_parseAnswerKey (t : List Char) : GoodKey (parseAnswerKey t) := by
  rw [parseAnswerKey]
  rcases hi : indexOfFrom keyMarker.data t 0 with - | i
  · simp only [hi]
    exact fun p hp => absurd hp (List.not_mem_nil p)
  · simp only [hi]
    exact GoodKey_scanLines _ _ GoodState_init

/-! ## Claim C2 -/

/-- Claim C2 (corrected): every decoded `correctOption` lies in `{1,2,3,4}`
and the question numbers of a section are distinct positive integers — and the
sentinel row itself always decodes to a contiguous run `1..k` — but the final
per-section question numbers need not be contiguous: a digit outside `[1,4]`
in the answer stream is dropped and leaves a gap (`c2_counterexample`). -/
theorem c2_amended :
    (∀ (text : List Char) (sec : String) (es : Entries),
        lookupSec (parseAnswerKey text) sec = some es →
          (es.map Prod.fst).Nodup ∧ ∀ p ∈ es, 1 ≤ p.2 ∧ p.2 ≤ 4 ∧ 1 ≤ p.1) ∧
      (∀ l : List Char, greedyNums l = List.range' 1 (greedyNums l).length) := by
  constructor
  · intro text sec es h
    exact (GoodKey_parseAnswerKey text _ (lookupSec_mem h)).2
  · intro l
    exact greedyAux_range' l.length 1 l

/-- Claim C2 counterexample: in `c2Text` the answer digit for question 5 is
`0`, which the decoder drops; the decoded question numbers have a gap at 5 and
are not a contiguous run starting at 1. -/
theorem c2_counterexample :
    lookupSec (parseAnswerKey c2Text) verbal1Pat.key = some c2Entries ∧
      c2Entries.map Prod.fst ≠ List.range' 1 (c2Entries.map Prod.fst).length ∧
      5 ∉ c2Entries.map Prod.fst ∧ 6 ∈ c2Entries.map Prod.fst := by
  exact ⟨by decide, by decide, by decide, by decide⟩

/-- Claim C2 witness: the invariant instantiated on the decoded entries of
`c2Text`. -/
theorem c2_witness :
    (c2Entries.map Prod.fst).Nodup ∧ ∀ p ∈ c2Entries, 1 ≤ p.2 ∧ p.2 ≤ 4 ∧ 1 ≤ p.1 :=
  c2_amended.1 c2Text verbal1Pat.key c2Entries (by decide)

/-! ## Lemmas: splitting and digit lines -/

theorem splitNL_append {a : List Char} (b : List Char) (h : ∀ c ∈ a, c ≠ '\n') :
    splitNL (a ++ '\n' :: b) = a :: splitNL b := by
  induction a with
  | nil =>
    rw [List.nil_append, splitNL, if_pos rfl]
  | cons c a ih =>
    rw [List.cons_append, splitNL,
      if_neg (by simpa using h c (List.mem_cons_self _ _)),
      ih fun x hx => h x (List.mem_cons_of_mem _ hx)]

theorem splitNL_no_nl {l : List Char} (h : ∀ c ∈ l, c ≠ '\n') : splitNL l = [l] := by
  induction l with
  | nil => rfl
  | cons c rest ih =>
    rw [splitNL, if_neg (by simpa using h c (List.mem_cons_self _ _)),
      ih fun x hx => h x (List.mem_cons_of_mem _ hx)]

theorem dig14_bounds {c : Char} (h : dig14 c = true) : 49 ≤ c.toNat ∧ c.toNat ≤ 52 := by
  rw [dig14, Bool.and_eq_true, decide_eq_true_eq, decide_eq_true_eq] at h
  exact ⟨h.1, h.2⟩

theorem dig14_isDigit {c : Char} (h : dig14 c = true) : isDigitCh c = true := by
  obtain ⟨h1, h2⟩ := dig14_bounds h
  rw [isDigitCh, Bool.and_eq_true, decide_eq_true_eq, decide_eq_true_eq]
  exact ⟨(by omega : 48 ≤ c.toNat), (by omega : c.toNat ≤ 57)⟩

theorem dig14_not_ws {c : Char} (h : dig14 c = true) : isWS c = false := by
  cases hw : isWS c
  · rfl
  · exfalso
    obtain ⟨h1, h2⟩ := dig14_bounds h
    simp only [isWS, Bool.or_eq_true, Bool.and_eq_true, decide_eq_true_eq] at hw
    omega

theorem dig14_ne_nl {c : Char} (h : dig14 c = true) : c ≠ '\n' := by
  intro he
  subst he
  exact absurd (dig14_bounds h).1 (by decide)

theorem dig14_val {c : Char} (h : dig14 c = true) :
    jsDigitVal c = some (dval c) ∧ 1 ≤ dval c ∧ dval c ≤ 4 := by
  obtain ⟨h1, h2⟩ := dig14_bounds h
  rw [jsDigitVal, if_pos (dig14_isDigit h)]
  refine ⟨rfl, ?_, ?_⟩ <;> (rw [dval]; omega)

theorem isDigitsLine_of_dig14 {ds : List Char} (h : ∀ c ∈ ds, dig14 c = true)
    (hne : ds ≠ []) : isDigitsLine ds = true := by
  cases ds with
  | nil => exact absurd rfl hne
  | cons c cs =>
    rw [isDigitsLine, List.all_eq_true]
    exact fun x hx => dig14_isDigit (h x hx)

theorem trimL_of_no_ws {l : List Char} (h : ∀ c ∈ l, isWS c = false) : trimL l = l :=
  trimL_of_headNonWS fun c cs hl => h c (by rw [hl]; exact List.mem_cons_self _ _)

theorem trimR_of_no_ws {l : List Char} (h : ∀ c ∈ l, isWS c = false) : trimR l = l := by
  induction l with
  | nil => rfl
  | cons c rest ih =>
    rw [trimR, ih fun x hx => h x (List.mem_cons_of_mem _ hx)]
    cases rest with
    | nil => simp [h c (List.mem_cons_self _ _)]
    | cons d ds => rfl

theorem trimBoth_of_no_ws {l : List Char} (h : ∀ c ∈ l, isWS c = false) :
    trimBoth l = l := by
  rw [trimBoth, trimL_of_no_ws h, trimR_of_no_ws h]

theorem containsSub_digits_false {pat ds : List Char} (hds : ∀ c ∈ ds, dig14 c = true)
    (hpat : ∃ c ∈ pat, dig14 c = false) : containsSub pat ds = false := by
  cases hc : containsSub pat ds
  · rfl
  · exfalso
    obtain ⟨c, hcp, hcf⟩ := hpat
    rw [hds c (containsSub_mem hc c hcp)] at hcf
    cases hcf

theorem findSec_digits {ds : List Char} (hds : ∀ c ∈ ds, dig14 c = true) :
    findSec ds = none := by
  rw [findSec]
  have hfind : keySections.find? (fun s => containsSub s.pattern.data ds) = none := by
    rw [List.find?_eq_none]
    intro sp hsp
    have hex : ∃ c ∈ sp.pattern.data, dig14 c = false := by
      fin_cases hsp <;> decide
    simp [containsSub_digits_false hds hex]
  rw [hfind]
  rfl

theorem endMarker_not_in_digits {ds : List Char} (hds : ∀ c ∈ ds, dig14 c = true) :
    containsSub endMarker.data ds = false :=
  containsSub_digits_false hds (by decide)

theorem sentinel_not_lead_digits {ds : List Char} (hds : ∀ c ∈ ds, dig14 c = true) :
    leadsWith sentinelPre.data ds = false := by
  cases hc : leadsWith sentinelPre.data ds
  · rfl
  · exact absurd (hds '5' (leadsWith_mem hc '5' (by decide))) (by decide)

/-! ## Lemmas: stepping the decoder on concrete lines -/

theorem scanLines_cons (st : KeyState) (l : List Char) (ls : List (List Char))
    (hend : containsSub endMarker.data (trimBoth l) = false) :
    scanLines st (l :: ls) =
      scanLines (digitStep (sectionStep st (trimBoth l)) (trimBoth l)) ls := by
  rw [scanLines, if_neg (by simp [hend])]

theorem scanLines_digit_final (st : KeyState) (sec : String) (qs : List Nat)
    (ds : List Char) (hcur : st.cur = some sec) (hqn : st.qn = some qs)
    (hcol : st.collected = []) (hds : ∀ c ∈ ds, dig14 c = true)
    (hlen : qs.length ≤ ds.length) (h10 : 10 < ds.length) :
    scanLines st [ds] =
      upsertSec st.akey sec (saveAnswersLoop ((lookupSec st.akey sec).getD []) qs ds) := by
  have hne : ds ≠ [] := by
    intro he
    rw [he] at h10
    exact absurd h10 (by decide)
  have hnws : ∀ c ∈ ds, isWS c = false := fun c hc => dig14_not_ws (hds c hc)
  have htrim : trimBoth ds = ds := trimBoth_of_no_ws hnws
  rw [scanLines, htrim, if_neg (by simp [endMarker_not_in_digits hds])]
  have hsec : sectionStep st ds = st := by
    rw [sectionStep]
    simp [findSec_digits hds]
  rw [hsec, digitStep,
    if_pos ⟨by rw [hcur]; rfl, isDigitsLine_of_dig14 hds hne, h10⟩,
    if_neg (by simp [sentinel_not_lead_digits hds]),
    if_pos (by rw [hqn]; rfl),
    accumulate]
  simp only [hqn, hcol, List.nil_append]
  rw [if_pos hlen, saveAnswers]
  simp only [hcur, hqn]
  rw [if_neg hne]
  rw [scanLines]

theorem saveAnswersLoop_zip : ∀ (qs : List Nat) (ds : List Char) (es : Entries),
    qs.Nodup → (∀ q ∈ qs, lookupEntry es q = none) → (∀ c ∈ ds, dig14 c = true) →
    saveAnswersLoop es qs ds = es ++ qs.zip (ds.map dval) := by
  intro qs
  induction qs with
  | nil =>
    intro ds es _ _ _
    rw [saveAnswersLoop]
    simp
  | cons q qs ih =>
    intro ds es hnd hfresh hds
    cases ds with
    | nil =>
      rw [saveAnswersLoop]
      simp
    | cons c cs =>
      obtain ⟨hjv, h1, h4⟩ := dig14_val (hds c (List.mem_cons_self _ _))
      rw [saveAnswersLoop]
      simp only [hjv]
      rw [if_pos ⟨h1, h4⟩, upsert_fresh (hfresh q (List.mem_cons_self _ _)),
        ih cs _ (List.Nodup.of_cons hnd)
          (fun q' hq' => by
            rw [lookupEntry_append_single (hfresh q' (List.mem_cons_of_mem _ hq')),
              if_neg fun (he : q = q') => (List.nodup_cons.mp hnd).1 (he ▸ hq')])
          fun x hx => hds x (List.mem_cons_of_mem _ hx)]
      simp [List.zip_cons_cons]

theorem c3_finish (st : KeyState) (sec : String) (ds : List Char)
    (hak : st.akey = [(sec, [])]) (hcur : st.cur = some sec)
    (hqn : st.qn = some (List.range' 1 23)) (hcol : st.collected = [])
    (hds : ∀ c ∈ ds, dig14 c = true) (hlen : ds.length = 23) :
    lookupSec (scanLines st [ds]) sec = some ((List.range' 1 23).zip (ds.map dval)) := by
  rw [scanLines_digit_final st sec _ ds hcur hqn hcol hds
      (by rw [List.length_range']; omega) (by omega)]
  rw [hak]
  have hl : lookupSec [(sec, [])] sec = some [] := by rw [lookupSec, if_pos rfl]
  rw [hl]
  simp only [Option.getD_some]
  rw [saveAnswersLoop_zip (List.range' 1 23) ds [] (by decide) (fun q _ => rfl) hds]
  rw [List.nil_append, lookupSec_upsertSec, if_pos rfl]

/-- Claim C3 (corrected): the 23-question sentinel row followed by pure-digit
answer lines totalling 23 characters yields exactly 23 entries numbered 1..23
**provided every answer digit lies in 1-4**; a digit outside that range is
dropped and removes the entry (`c3_counterexample`). -/
theorem c3_amended (p : SecPat) (hp : p ∈ keySections) (ds : List Char)
    (hlen : ds.length = 23) (hds : ∀ c ∈ ds, dig14 c = true) :
    lookupSec (parseAnswerKey (c3text p ds)) p.key =
        some ((List.range' 1 23).zip (ds.map dval)) ∧
      ((List.range' 1 23).zip (ds.map dval)).map Prod.fst = List.range' 1 23 ∧
      ((List.range' 1 23).zip (ds.map dval)).length = 23 := by
  have hdsnl : ∀ c ∈ ds, c ≠ '\n' := fun c hc => dig14_ne_nl (hds c hc)
  have hzf : ((List.range' 1 23).zip (ds.map dval)).map Prod.fst = List.range' 1 23 :=
    List.map_fst_zip _ _ (by rw [List.length_range', List.length_map]; omega)
  have hlz : ((List.range' 1 23).zip (ds.map dval)).length = 23 := by
    rw [List.length_zip, List.length_range', List.length_map, hlen]
    omega
  have hpnl : ∀ c ∈ p.pattern.data, c ≠ '\n' := by fin_cases hp <;> decide
  have hpend : containsSub endMarker.data (trimBoth p.pattern.data) = false := by
    fin_cases hp <;> decide
  refine ⟨?_, hzf, hlz⟩
  rw [c3text, parseAnswerKey]
  simp only [indexOfFrom_self_lead (show keyMarker.data ≠ [] by decide),
    List.drop_zero]
  rw [splitNL_append _ (by decide), splitNL_append _ hpnl,
    splitNL_append _ (by decide), splitNL_no_nl hdsnl]
  rw [scanLines_cons _ _ _ (by decide), scanLines_cons _ _ _ hpend,
    scanLines_cons _ _ _ (by decide)]
  fin_cases hp <;>
    exact c3_finish _ _ ds (by decide) (by decide) (by decide) (by decide) hds hlen

/-- Claim C3 counterexample: a 23-character answer stream of zeroes (pure
digits) against the 23-question sentinel yields 0 entries, not 23. -/
theorem c3_counterexample :
    lookupSec (parseAnswerKey (c3text verbal1Pat (List.replicate 23 '0')))
        verbal1Pat.key = some [] ∧ (0 : Nat) ≠ 23 :=
  ⟨by decide, by decide⟩

/-- Claim C3 witness: a concrete all-ones 23-character answer stream produces
exactly the 23 entries 1..23. -/
theorem c3_witness :
    lookupSec (parseAnswerKey (c3text verbal1Pat (List.replicate 23 '1')))
        verbal1Pat.key =
      some ((List.range' 1 23).zip ((List.replicate 23 '1').map dval)) :=
  (c3_amended verbal1Pat (by decide) (List.replicate 23 '1') (by decide)
    (by decide)).1

/-! ## Lemmas: the reconciliation merge -/

theorem sectionQuestions_eq_map (season : String) (d : SectionDef) (es : Entries)
    (ex sol : String → Nat → Option Block) (expl : String → Nat → Option String) :
    sectionQuestions season d es ex sol expl =
      (List.insertionSort (· ≤ ·) (es.map Prod.fst)).map
        (buildQuestion season d es ex sol expl) := by
  rw [sectionQuestions]
  by_cases h : List.insertionSort (· ≤ ·) (es.map Prod.fst) = []
  · rw [if_pos h, h, List.map_nil]
  · rw [if_neg h]

theorem buildQuestion_sectionType (season : String) (d : SectionDef) (es : Entries)
    (ex sol : String → Nat → Option Block) (expl : String → Nat → Option String)
    (q : Nat) : (buildQuestion season d es ex sol expl q).sectionType = d.type := rfl

theorem buildQuestion_sectionNumber (season : String) (d : SectionDef) (es : Entries)
    (ex sol : String → Nat → Option Block) (expl : String → Nat → Option String)
    (q : Nat) : (buildQuestion season d es ex sol expl q).sectionNumber = d.sectionNum := rfl

theorem buildQuestion_questionNumber (season : String) (d : SectionDef) (es : Entries)
    (ex sol : String → Nat → Option Block) (expl : String → Nat → Option String)
    (q : Nat) : (buildQuestion season d es ex sol expl q).questionNumber = q := rfl

theorem buildQuestion_correctAnswer (season : String) (d : SectionDef) (es : Entries)
    (ex sol : String → Nat → Option Block) (expl : String → Nat → Option String)
    (q : Nat) :
    (buildQuestion season d es ex sol expl q).correctAnswer = (lookupEntry es q).getD 0 := rfl

theorem nonemptyOptCount_eq_zero_of_any_false {b : Block}
    (h : b.optList.any (fun o => o ≠ "") = false) :
    nonemptyOptCount (some b) = 0 := by
  rw [nonemptyOptCount, List.length_eq_zero, List.filter_eq_nil_iff]
  intro a ha hpa
  have h2 : b.optList.any (fun o => o ≠ "") = true :=
    List.any_eq_true.mpr ⟨a, ha, hpa⟩
  rw [h] at h2
  cases h2

theorem buildQuestion_hasFullText (season : String) (d : SectionDef) (es : Entries)
    (ex sol : String → Nat → Option Block) (expl : String → Nat → Option String)
    (q : Nat) :
    (buildQuestion season d es ex sol expl q).hasFullText =
      (genuineStem (effStem (mergeExtract (ex d.key q) (sol d.key q))) ||
        decide (2 ≤ nonemptyOptCount (mergeExtract (ex d.key q) (sol d.key q)))) := by
  simp only [buildQuestion]
  rcases hm : mergeExtract (ex d.key q) (sol d.key q) with - | b
  · simp only [hm]
    simp [nonemptyOptCount]
  · simp only [hm]
    by_cases hany : b.optList.any (fun o => o ≠ "") = true
    · rw [if_pos hany]
      rfl
    · rw [if_neg hany]
      have hf : b.optList.any (fun o => o ≠ "") = false := by
        cases h' : b.optList.any (fun o => o ≠ "")
        · rfl
        · exact absurd h' hany
      rw [nonemptyOptCount_eq_zero_of_any_false hf]
      simp

theorem buildQuestion_noExtract (season : String) (d : SectionDef) (es : Entries)
    (ex sol : String → Nat → Option Block) (expl : String → Nat → Option String)
    (q : Nat) (hex : ex d.key q = none) (hsol : sol d.key q = none) :
    (buildQuestion season d es ex sol expl q).options =
        placeholderOpts (if d.lang = heLang then hebrewLabels else englishLabels) ∧
      (buildQuestion season d es ex sol expl q).hasFullText = false ∧
      (expl d.key q = none → (buildQuestion season d es ex sol expl q).explanation = "") := by
  have hm : mergeExtract (ex d.key q) (sol d.key q) = none := by
    rw [hex, hsol]
    rfl
  refine ⟨?_, ?_, ?_⟩
  · rw [buildQuestion]
    simp [hm]
  · rw [buildQuestion_hasFullText, hm]
    simp [effStem, genuineStem, nonemptyOptCount]
  · intro hexpl
    rw [buildQuestion]
    simp only [hexpl, Option.getD_none]
    show cleanExplanationStr (String.mk []) = String.mk []
    decide

theorem mem_parseExamQuestions {akey : AnswerKey} {ex sol : String → Nat → Option Block}
    {expl : String → Nat → Option String} {season : String} {Q : Question} :
    Q ∈ parseExamQuestions akey ex sol expl season ↔
      ∃ d ∈ sectionDefs,
        ∃ q ∈ List.insertionSort (· ≤ ·) (((lookupSec akey d.key).getD []).map Prod.fst),
          Q = buildQuestion season d ((lookupSec akey d.key).getD []) ex sol expl q := by
  rw [parseExamQuestions, List.mem_flatMap]
  constructor
  · rintro ⟨d, hd, hQ⟩
    rw [sectionQuestions_eq_map] at hQ
    obtain ⟨q, hq, rfl⟩ := List.mem_map.mp hQ
    exact ⟨d, hd, q, hq, rfl⟩
  · rintro ⟨d, hd, q, hq, rfl⟩
    refine ⟨d, hd, ?_⟩
    rw [sectionQuestions_eq_map]
    exact List.mem_map.mpr ⟨q, hq, rfl⟩

theorem mem_sorted_keys_iff {es : Entries} {q : Nat} :
    q ∈ List.insertionSort (· ≤ ·) (es.map Prod.fst) ↔ q ∈ es.map Prod.fst :=
  (List.perm_insertionSort _ _).mem_iff

theorem sd_unique : ∀ d ∈ sectionDefs, ∀ d' ∈ sectionDefs,
    d.type = d'.type → d.sectionNum = d'.sectionNum → d = d' := by decide

theorem sd_keys_eq : sectionDefs.map SectionDef.key = secKeys := by decide

/-! ## Claim C1 -/

/-- Claim C1 (confirmed): the merged questions are exactly indexed by the
`(section, questionNumber)` pairs of the decoded answer key — one question per
keyed pair, none for unkeyed pairs — and each question's `correctAnswer` is
the key's value, for **every** exam/solution extraction outcome (`ex`, `sol`,
`expl` are arbitrary). -/
theorem c1_merge_keyed (t : List Char) (ex sol : String → Nat → Option Block)
    (expl : String → Nat → Option String) (season : String) :
    (∀ sec es, lookupSec (parseAnswerKey t) sec = some es →
        sec ∈ sectionDefs.map SectionDef.key) ∧
      (∀ d ∈ sectionDefs, ∀ q a,
        keyVal (parseAnswerKey t) d.key q = some a ↔
          ∃ Q ∈ parseExamQuestions (parseAnswerKey t) ex sol expl season,
            Q.sectionType = d.type ∧ Q.sectionNumber = d.sectionNum ∧
              Q.questionNumber = q ∧ Q.correctAnswer = a) ∧
      (∀ Q ∈ parseExamQuestions (parseAnswerKey t) ex sol expl season,
        ∃ d ∈ sectionDefs, Q.sectionType = d.type ∧ Q.sectionNumber = d.sectionNum ∧
          keyVal (parseAnswerKey t) d.key Q.questionNumber = some Q.correctAnswer) ∧
      ((parseExamQuestions (parseAnswerKey t) ex sol expl season).map
          fun Q => (Q.sectionType, Q.sectionNumber, Q.questionNumber)).Nodup := by
  have hgood := GoodKey_parseAnswerKey t
  refine ⟨?_, ?_, ?_, ?_⟩
  · intro sec es h
    rw [sd_keys_eq]
    exact (hgood _ (lookupSec_mem h)).1
  · intro d hd q a
    constructor
    · intro hk
      rw [keyVal] at hk
      refine ⟨buildQuestion season d ((lookupSec (parseAnswerKey t) d.key).getD [])
          ex sol expl q, ?_, rfl, rfl, rfl, ?_⟩
      · exact mem_parseExamQuestions.mpr ⟨d, hd, q,
          mem_sorted_keys_iff.mpr (List.mem_map_of_mem _ (lookupEntry_mem hk)), rfl⟩
      · rw [buildQuestion_correctAnswer, hk]
        rfl
    · rintro ⟨Q, hQ, ht, hn, hq, ha⟩
      obtain ⟨d', hd', q', hq', rfl⟩ := mem_parseExamQuestions.mp hQ
      rw [buildQuestion_sectionType] at ht
      rw [buildQuestion_sectionNumber] at hn
      rw [buildQuestion_questionNumber] at hq
      have hdd : d' = d := sd_unique d' hd' d hd ht hn
      subst hdd hq
      obtain ⟨a', ha'⟩ := exists_lookupEntry_of_mem_keys (mem_sorted_keys_iff.mp hq')
      rw [keyVal, ha']
      rw [buildQuestion_correctAnswer, ha'] at ha
      rw [← ha]
      rfl
  · intro Q hQ
    obtain ⟨d, hd, q, hq, rfl⟩ := mem_parseExamQuestions.mp hQ
    obtain ⟨a', ha'⟩ := exists_lookupEntry_of_mem_keys (mem_sorted_keys_iff.mp hq)
    refine ⟨d, hd, rfl, rfl, ?_⟩
    rw [buildQuestion_questionNumber, buildQuestion_correctAnswer, keyVal, ha']
    rfl
  · rw [parseExamQuestions, List.map_flatMap]
    rw [List.nodup_flatMap]
    constructor
    · intro d hd
      simp only [sectionQuestions_eq_map, List.map_map]
      have hinj : Function.Injective
          (fun q => (d.type, d.sectionNum, q) : Nat → String × Nat × Nat) := by
        intro a b hab
        exact congrArg (fun p => p.2.2) hab
      have hnd : (List.insertionSort (· ≤ ·)
          (((lookupSec (parseAnswerKey t) d.key).getD []).map Prod.fst)).Nodup := by
        refine (List.perm_insertionSort _ _).nodup_iff.mpr ?_
        rcases hl : lookupSec (parseAnswerKey t) d.key with - | es
        · simp
        · simp only [Option.getD_some]
          exact (hgood _ (lookupSec_mem hl)).2.1
      exact hnd.map hinj
    · have hpw : sectionDefs.Pairwise
          (fun d d' => ¬(d.type = d'.type ∧ d.sectionNum = d'.sectionNum)) := by decide
      refine hpw.imp ?_
      intro d d' hne
      intro x hx hx'
      simp only [sectionQuestions_eq_map, List.map_map] at hx hx'
      obtain ⟨q, -, hq⟩ := List.mem_map.mp hx
      obtain ⟨q', -, hq'⟩ := List.mem_map.mp hx'
      rw [← hq'] at hq
      have h1 : d.type = d'.type := congrArg (fun p => p.1) hq
      have h2 : d.sectionNum = d'.sectionNum := congrArg (fun p => p.2.1) hq
      exact hne ⟨h1, h2⟩

/-- Claim C1 witness: on a concrete decoded key, question 3 of verbal-1 is
emitted with the key's answer 2. -/
theorem c1_witness :
    ∃ Q ∈ parseExamQuestions (parseAnswerKey c7Text) noBlocks noBlocks
        noExplanations seasonId,
      Q.sectionType = sd1.type ∧ Q.sectionNumber = sd1.sectionNum ∧
        Q.questionNumber = 3 ∧ Q.correctAnswer = 2 :=
  ((c1_merge_keyed c7Text noBlocks noBlocks noExplanations seasonId).2.1 sd1
      (by decide) 3 2).mp (by decide)

/-! ## Claim C6 -/

/-- Claim C6 (confirmed): a merged question's confidence flag is true iff the
(exam-first, solution-fallback) extracted block has a genuine non-placeholder
stem or at least two nonempty options — for every extraction outcome. -/
theorem c6_confirmed (akey : AnswerKey) (ex sol : String → Nat → Option Block)
    (expl : String → Nat → Option String) (season : String) (d : SectionDef)
    (hd : d ∈ sectionDefs) (Q : Question)
    (hQ : Q ∈ parseExamQuestions akey ex sol expl season)
    (ht : Q.sectionType = d.type) (hn : Q.sectionNumber = d.sectionNum) :
    Q.hasFullText = true ↔
      (genuineStem (effStem (mergeExtract (ex d.key Q.questionNumber)
            (sol d.key Q.questionNumber))) = true ∨
        2 ≤ nonemptyOptCount (mergeExtract (ex d.key Q.questionNumber)
            (sol d.key Q.questionNumber))) := by
  obtain ⟨d', hd', q', hq', rfl⟩ := mem_parseExamQuestions.mp hQ
  rw [buildQuestion_sectionType] at ht
  rw [buildQuestion_sectionNumber] at hn
  have hdd : d' = d := sd_unique d' hd' d hd ht hn
  subst hdd
  rw [buildQuestion_questionNumber, buildQuestion_hasFullText]
  rw [Bool.or_eq_true, decide_eq_true_eq]

/-- Claim C6 witness: a question with a fully extracted block has the flag
set. -/
theorem c6_witness :
    (buildQuestion seasonId sd1 [(1, 2)] c6Ex noBlocks noExplanations 1).hasFullText =
      true :=
  (c6_confirmed c6Akey c6Ex noBlocks noExplanations seasonId sd1 (by decide)
      (buildQuestion seasonId sd1 [(1, 2)] c6Ex noBlocks noExplanations 1)
      (by decide) rfl rfl).mpr (by decide)

/-! ## Claim C7 -/

/-- Claim C7 (corrected): a keyed question with neither exam nor solution
extraction is still emitted by `improved-parser.cjs`, with 4 placeholder
options and `hasFullText = false` — but its explanation is the (cleaned)
solution explanation, which is **empty** when the solution extractor yields
none; the synthesized statement naming the correct label is produced only by
the `official-parser.cjs` variant, whose questions carry no `hasFullText`
flag. -/
theorem c7_amended :
    (∀ (akey : AnswerKey) (ex sol : String → Nat → Option Block)
        (expl : String → Nat → Option String) (season : String) (d : SectionDef),
        d ∈ sectionDefs → ∀ q a, keyVal akey d.key q = some a →
        ex d.key q = none → sol d.key q = none →
        ∃ Q ∈ parseExamQuestions akey ex sol expl season,
          Q.sectionType = d.type ∧ Q.sectionNumber = d.sectionNum ∧
            Q.questionNumber = q ∧
            Q.options = placeholderOpts
              (if d.lang = heLang then hebrewLabels else englishLabels) ∧
            Q.options.length = 4 ∧ Q.hasFullText = false ∧
            (expl d.key q = none → Q.explanation = "")) ∧
      (∀ (season : String) (d : SectionDef) (q a : Nat),
        (officialBuild season d q a none).explanation =
            synthPrefix ++ labelAt hebrewLabels (a - 1) ∧
          (officialBuild season d q a none).options.length = 4) := by
  constructor
  · intro akey ex sol expl season d hd q a hk hex hsol
    rw [keyVal] at hk
    obtain ⟨hopts, hfull, hexp⟩ :=
      buildQuestion_noExtract season d ((lookupSec akey d.key).getD []) ex sol expl q
        hex hsol
    refine ⟨buildQuestion season d ((lookupSec akey d.key).getD []) ex sol expl q,
      mem_parseExamQuestions.mpr ⟨d, hd, q,
        mem_sorted_keys_iff.mpr (List.mem_map_of_mem _ (lookupEntry_mem hk)), rfl⟩,
      rfl, rfl, rfl, hopts, ?_, hfull, hexp⟩
    rw [hopts]
    rw [placeholderOpts]
    rfl
  · intro season d q a
    exact ⟨rfl, rfl⟩

/-- Claim C7 counterexample: with no extraction and no solution explanation,
the improved parser emits the question with an **empty** explanation — not a
synthesized statement naming the correct label. -/
theorem c7_counterexample :
    ∃ Q ∈ parseExamQuestions (parseAnswerKey c7Text) noBlocks noBlocks
        noExplanations seasonId,
      Q.hasFullText = false ∧ Q.explanation = "" ∧
        containsSub synthPrefix.data Q.explanation.data = false := by decide

/-- Claim C7 witness: the amended claim instantiated on a concrete keyed
question with no extraction. -/
theorem c7_witness :
    ∃ Q ∈ parseExamQuestions (parseAnswerKey c7Text) noBlocks noBlocks
        noExplanations seasonId,
      Q.sectionType = sd1.type ∧ Q.sectionNumber = sd1.sectionNum ∧
        Q.questionNumber = 1 ∧
        Q.options = placeholderOpts
          (if sd1.lang = heLang then hebrewLabels else englishLabels) ∧
        Q.options.length = 4 ∧ Q.hasFullText = false ∧
        (noExplanations sd1.key 1 = none → Q.explanation = "") :=
  c7_amended.1 (parseAnswerKey c7Text) noBlocks noBlocks noExplanations seasonId sd1
    (by decide) 1 2 (by decide) rfl rfl

/-! ## Claim C9 -/

theorem mem_parseExamQuestions_pair {akey : AnswerKey}
    {ex sol : String → Nat → Option Block} {expl : String → Nat → Option String}
    {season : String} {Q : Question}
    (h : Q ∈ parseExamQuestions akey ex sol expl season) :
    (Q.sectionType, Q.sectionNumber) ∈ sectionDefs.map fun d => (d.type, d.sectionNum) := by
  obtain ⟨d, hd, q, hq, rfl⟩ := mem_parseExamQuestions.mp h
  rw [buildQuestion_sectionType, buildQuestion_sectionNumber]
  exact List.mem_map_of_mem _ hd

theorem pair_num {Q : Question}
    (hp : (Q.sectionType, Q.sectionNumber) ∈
      sectionDefs.map fun d => (d.type, d.sectionNum)) :
    Q.sectionNumber = 1 ∨ Q.sectionNumber = 2 := by
  simp only [sectionDefs, List.map_cons, List.map_nil, List.mem_cons,
    List.not_mem_nil, or_false] at hp
  rcases hp with h|h|h|h|h|h <;>
    first
    | exact Or.inl (congrArg Prod.snd h)
    | exact Or.inr (congrArg Prod.snd h)

theorem length_filter_split {α : Type} (l : List α) (P Q R : α → Prop)
    [DecidablePred P] [DecidablePred Q] [DecidablePred R]
    (h : ∀ x ∈ l, P x → ((Q x ∧ ¬R x) ∨ (R x ∧ ¬Q x))) :
    (l.filter fun x => P x).length =
      (l.filter fun x => P x ∧ Q x).length + (l.filter fun x => P x ∧ R x).length := by
  induction l with
  | nil => rfl
  | cons a l ih =>
    have ih' := ih fun x hx => h x (List.mem_cons_of_mem _ hx)
    by_cases hP : P a
    · rcases h a (List.mem_cons_self _ _) hP with ⟨hQ, hR⟩ | ⟨hR, hQ⟩
      · simp [List.filter_cons, hP, hQ, hR, ih']
        omega
      · simp [List.filter_cons, hP, hQ, hR, ih']
        omega
    · simp [List.filter_cons, hP, ih']

theorem count_split (qs : List Question)
    (hsh : ∀ Q ∈ qs, (Q.sectionType, Q.sectionNumber) ∈
      sectionDefs.map fun d => (d.type, d.sectionNum)) (ty : String) :
    (qs.filter fun q => q.sectionType = ty).length =
      countPair qs ty 1 + countPair qs ty 2 := by
  rw [countPair, countPair]
  refine length_filter_split qs _ _ _ fun x hx hP => ?_
  rcases pair_num (hsh x hx) with h1 | h2
  · exact Or.inl ⟨h1, by omega⟩
  · exact Or.inr ⟨h2, by omega⟩

/-- Claim C9 (corrected): the emitted exam document records one count per
`sectionType` (not per `(sectionType, sectionNumber)` pair); each recorded
count equals the **sum** of the two pair-grouped counts of that type, and the
total count equals the number of merged questions.  `c9_counterexample` shows
a recorded count differing from every single pair-grouped count. -/
theorem c9_amended (t : List Char) (ex sol : String → Nat → Option Block)
    (expl : String → Nat → Option String) (season seasonHebrew : String) :
    (assembleExam season seasonHebrew
        (parseExamQuestions (parseAnswerKey t) ex sol expl season)).totalQuestions =
        (parseExamQuestions (parseAnswerKey t) ex sol expl season).length ∧
      (assembleExam season seasonHebrew
        (parseExamQuestions (parseAnswerKey t) ex sol expl season)).sections.verbal =
        countPair (parseExamQuestions (parseAnswerKey t) ex sol expl season) verbalStr 1 +
          countPair (parseExamQuestions (parseAnswerKey t) ex sol expl season) verbalStr 2 ∧
      (assembleExam season seasonHebrew
        (parseExamQuestions (parseAnswerKey t) ex sol expl season)).sections.quantitative =
        countPair (parseExamQuestions (parseAnswerKey t) ex sol expl season) quantitativeStr 1 +
          countPair (parseExamQuestions (parseAnswerKey t) ex sol expl season) quantitativeStr 2 ∧
      (assembleExam season seasonHebrew
        (parseExamQuestions (parseAnswerKey t) ex sol expl season)).sections.english =
        countPair (parseExamQuestions (parseAnswerKey t) ex sol expl season) englishStr 1 +
          countPair (parseExamQuestions (parseAnswerKey t) ex sol expl season) englishStr 2 := by
  refine ⟨rfl, ?_, ?_, ?_⟩ <;>
    exact count_split _ (fun Q hQ => mem_parseExamQuestions_pair hQ) _

/-- Claim C9 counterexample: with ten questions in each verbal section, the
document records 20 for verbal while each pair-grouped count is 10. -/
theorem c9_counterexample :
    (assembleExam seasonId seasonHe
        (parseExamQuestions (parseAnswerKey c9Text) noBlocks noBlocks
          noExplanations seasonId)).sections.verbal = 20 ∧
      countPair (parseExamQuestions (parseAnswerKey c9Text) noBlocks noBlocks
          noExplanations seasonId) verbalStr 1 = 10 ∧
      countPair (parseExamQuestions (parseAnswerKey c9Text) noBlocks noBlocks
          noExplanations seasonId) verbalStr 2 = 10 ∧
      (20 : Nat) ≠ 10 := by decide

/-! ## Claim C8 -/

/-- Claim C8 (corrected): each stage of the inline-option recognizer is gated
on at least two regex **matches** — not two distinct indices.  When every
stage has fewer than two matches the recognizer returns none, and if the two
standalone matchers also fail the line is classified as stem text; conversely
an accepted line has some stage with at least two matches, but the matches
may repeat one index (see `c8_counterexample`). -/
theorem c8_amended :
    (∀ l : List Char,
        (rtlScan l).length < 2 ∧ (ltrScan l).length < 2 ∧ (mixedScan l).length < 2 →
        parseInlineHebrewOptions l = none ∧
          (standaloneRtl l = none → standaloneLtr l = none →
            classifyLine l = LineClass.stemLine)) ∧
      ∀ (l : List Char) (opts : List (List Char)),
        parseInlineHebrewOptions l = some opts →
        2 ≤ (rtlScan l).length ∨ 2 ≤ (ltrScan l).length ∨ 2 ≤ (mixedScan l).length := by
  have key : ∀ l : List Char,
      (rtlScan l).length < 2 → (ltrScan l).length < 2 → (mixedScan l).length < 2 →
      parseInlineHebrewOptions l = none := by
    intro l h1 h2 h3
    have n1 : ¬ 2 ≤ (rtlScan l).length := by omega
    have n2 : ¬ 2 ≤ (ltrScan l).length := by omega
    have n3 : ¬ 2 ≤ (mixedScan l).length := by omega
    simp [parseInlineHebrewOptions, n1, n2, n3]
  constructor
  · rintro l ⟨h1, h2, h3⟩
    have hnone := key l h1 h2 h3
    refine ⟨hnone, fun hr hl => ?_⟩
    simp [classifyLine, hnone, hr, hl]
  · intro l opts h
    by_contra hc
    push_neg at hc
    obtain ⟨n1, n2, n3⟩ := hc
    rw [key l n1 n2 n3] at h
    cases h

/-- Claim C8 counterexample: the line holds two matches with the **same**
index 1, so only one distinct index occurs, yet the recognizer accepts it
(the claim says it should return none). -/
theorem c8_counterexample :
    distinctIndices c8Line.data = [1] ∧
      parseInlineHebrewOptions c8Line.data = some c8Opts ∧
      parseInlineHebrewOptions c8Line.data ≠ none := by decide

/-- Claim C8 witness: a patternless line is rejected and classified as stem
text. -/
theorem c8_witness :
    parseInlineHebrewOptions c8Plain.data = none ∧
      classifyLine c8Plain.data = LineClass.stemLine := by
  have h := c8_amended.1 c8Plain.data (by decide)
  exact ⟨h.1, h.2 (by decide) (by decide)⟩

end Psycho
